import Mathlib

/-!
Shallow embedding of the indexed hash cache implemented in
src/index-hash-table.c, together with proofs about the claims of the
specification.

Modelling conventions:

* Machine integers are `Nat` with explicit reduction `% 2^64` (resp. `% 2^32`)
  at the points where the C code's fixed-width arithmetic can overflow.
* Byte buffers (keys, values, items) are modelled at byte granularity.  The
  directory arrays (`states`, `entries`) and the item pool are modelled as
  total functions from indices, updated pointwise; the C code only ever
  accesses indices below the corresponding allocation sizes, which the
  invariants below track.  Each pool item is its own byte function of
  conceptual length `item_size` (the pool is contiguous in C; none of the
  runs evaluated here writes past an item's end).
* The unbounded C loops (linear probing, victim search) are modelled with an
  explicit fuel argument; `none` marks fuel exhaustion, i.e. a point where
  the C loop would not have terminated within the given bound.  The fuel
  passed by the wrappers is large enough whenever the table has an empty
  slot (probing) resp. an occupied slot (victim search), which is proved
  below.
* The value-destroyer callback is modelled by a boolean presence flag plus a
  ghost log `destroyed` recording the value bytes it was invoked on.  The
  producer (filler) callback is modelled as a pure function from key bytes
  to an optional value.
* `alignof(max_align_t)` is 16 on the x86-64 SysV ABI targeted by the code.
* The process-wide CRC32 capability flag `use_crc` is a per-cache parameter
  of the model; both hash paths of the C code are embedded.
-/

namespace Iht

/-- Knuth 64-bit golden-ratio constant `KNUTH_GOLD_64`. -/
def G64 : Nat := 0x9e3779b97f4a7c15

/-- Knuth 32-bit golden-ratio constant `KNUTH_GOLD_32`. -/
def G32 : Nat := 0x9e377989

/-- Reflected CRC32C polynomial used by the x86 `crc32` instruction. -/
def CRCPOLY : Nat := 0x82F63B78

/-- Little-endian interpretation of a byte list (first byte least
significant), as produced by loading the bytes into a 64-bit register. -/
def le64 (bs : List Nat) : Nat := bs.foldr (fun b acc => b + 256 * acc) 0

/-- Pointwise update of a function-modelled array. -/
def upd {α : Type} (f : Nat → α) (i : Nat) (v : α) : Nat → α :=
  fun j => if j = i then v else f j

/-- Read `len` bytes starting at `off` from a function-modelled buffer. -/
def readBytes (f : Nat → Nat) (off len : Nat) : List Nat :=
  (List.range len).map (fun i => f (off + i))

/-- Write the bytes `src` into a function-modelled buffer starting at `off`
(the model of `memcpy(buf + off, src, src.length)`). -/
def writeBytes (f : Nat → Nat) (off : Nat) (src : List Nat) : Nat → Nat :=
  fun j => if off ≤ j ∧ j < off + src.length then src.getD (j - off) 0 else f j

/-- Iterate a function `n` times. -/
def iterate {α : Type} (g : α → α) : Nat → α → α
  | 0, a => a
  | n + 1, a => iterate g n (g a)

/-- One bit-step of the reflected CRC32C computation: state is the pair
(crc, remaining data bits). -/
def crcStep (p : Nat × Nat) : Nat × Nat :=
  let b := (p.1 ^^^ p.2) % 2
  let c := p.1 / 2
  (if b = 1 then c ^^^ CRCPOLY else c, p.2 / 2)

/-- Model of `_mm_crc32_u64`: fold 64 data bits (least significant first)
into a 32-bit CRC32C accumulator. -/
def crc32u64 (crc data : Nat) : Nat :=
  (iterate crcStep 64 (crc % 2 ^ 32, data % 2 ^ 64)).1

/-- Model of `fast_key_hash`: hash a 16-byte key (given as bytes, loaded as
two little-endian 64-bit lanes `v0`, `v1`).  The hardware path folds both
lanes through CRC32C seeded with `KNUTH_GOLD_32`; the software path mixes
them with the 64-bit golden constant and folds the halves together. -/
def fast_key_hash (use_crc : Bool) (key : List Nat) : Nat :=
  let v0 := le64 (key.take 8) % 2 ^ 64
  let v1 := le64 ((key.drop 8).take 8) % 2 ^ 64
  if use_crc then
    crc32u64 (crc32u64 G32 v0) v1
  else
    let h := ((v0 ^^^ ((v1 + G64) % 2 ^ 64)) * G64) % 2 ^ 64
    let h1 := h ^^^ (h >>> 32)
    let h2 := h1 ^^^ (h1 >>> 16)
    h2 % 2 ^ 32

/-- The 8-byte-lane loop of the software hash in `key_hash`.  `pos` advances
by 8 while `pos < bytes`; each lane is loaded little-endian from the caller's
buffer `mem`.  Note that for `bytes` not a multiple of 8 the final lane
extends past byte `bytes`, exactly as the C loop over-reads; `mem` therefore
represents the key bytes together with whatever trailing memory the C code
would read.  Returns the accumulator and the final `pos`. -/
def slow_lanes (mem : List Nat) (bytes : Nat) : Nat → Nat → Nat → Nat × Nat
  | pos, h, 0 => (h, pos)
  | pos, h, fuel + 1 =>
    if pos < bytes then
      let lane := le64 ((mem.drop pos).take 8) % 2 ^ 64
      slow_lanes mem bytes (pos + 8) (((h ^^^ lane) * G64) % 2 ^ 64) fuel
    else (h, pos)

/-- Model of the general (non-fast) software path of `key_hash` for a key of
`bytes` bytes located at the start of `mem`.  The tail branch of the C code
is included verbatim; it is dead because the lane loop always finishes with
`pos ≥ bytes`. -/
def slow_key_hash (bytes : Nat) (mem : List Nat) : Nat :=
  let h0 := (G64 + bytes) % 2 ^ 64
  let hp := slow_lanes mem bytes 0 h0 (bytes + 1)
  let h1 :=
    if hp.2 < bytes then
      let tail := le64 ((mem.drop hp.2).take (bytes - hp.2)) % 2 ^ 64
      ((hp.1 ^^^ tail) * G64) % 2 ^ 64
    else hp.1
  let h2 := h1 ^^^ (h1 >>> 32)
  let h3 := h2 ^^^ (h2 >>> 16)
  h3 % 2 ^ 32

/-- Cached directory entry: `{ hash_value, item_index }`. -/
structure Entry where
  hash_value : Nat
  item_index : Nat
deriving DecidableEq, Repr

/-- A statistics counter: number of events and total probe scans. -/
structure Counter where
  count : Nat
  scans : Nat
deriving DecidableEq, Repr

/-- The `iht_stats` block. -/
structure Stats where
  lookups : Nat
  hits : Counter
  misses : Counter
  adds : Counter
  updates : Counter
  evictions : Counter
deriving DecidableEq, Repr

/-- Cache configuration: the fields of `struct iht_cache` fixed by `setup`.
The load factor is carried as the exact rational `lf_num / lf_den` (the C
field is a `double`; the default 0.40 is modelled as 2/5, with which the
C double computations agree on the quantities derived here). -/
structure Config where
  key_size : Nat
  value_size : Nat
  lf_num : Nat
  lf_den : Nat
  max_entries : Nat
  entries_mask : Nat
  max_items : Nat
  item_size : Nat
  key_offset : Nat
  value_offset : Nat
  short_key : Bool
  fast_key : Bool
  fast_value : Bool
  fast_mode : Bool
  use_crc : Bool
  filler : Option (List Nat → Option (List Nat))

/-- Mutable cache state. -/
structure Cache where
  cfg : Config
  states : Nat → Nat
  entries : Nat → Entry
  items : Nat → Nat → Nat
  item_count : Nat
  evict_index : Nat
  work_key : List Nat
  value_destroyer : Bool
  destroyed : List (List Nat)
  stats : Stats

/-- Model of `alignof(max_align_t)` on x86-64. -/
def maxAlign : Nat := 16

/-- C `int` division truncates toward zero; `Int.tdiv` has the same
semantics. -/
def cdiv (a b : Int) : Int := Int.tdiv a b

/-- The `while (max_entries < min_entries) max_entries *= 2` loop of
`setup`, with fuel. -/
def pow2_loop : Nat → Nat → Nat → Nat
  | 0, acc, _ => acc
  | f + 1, acc, target => if acc < target then pow2_loop f (acc * 2) target else acc

/-- Model of `setup`: derive the directory geometry and the item layout from
the configuration inputs. -/
def setup (min_capacity key_size value_size : Nat) (lf_num lf_den : Nat)
    (filler : Option (List Nat → Option (List Nat))) (use_crc : Bool) : Config :=
  let capacity := max min_capacity 16
  let min_entries := (capacity * lf_den + lf_num - 1) / lf_num
  let max_entries := pow2_loop min_entries 1 min_entries
  let max_items := max_entries * lf_num / lf_den
  let short_key := key_size < 16
  let fast_key := key_size ≤ 16
  let fast_value := value_size ≤ 16
  let fast_mode := fast_key && fast_value
  let key_offset : Nat := 0
  let value_offset : Nat := 16
  let item_size : Nat := 32
  let layout : Nat × Nat × Nat :=
    if fast_mode then (key_offset, value_offset, item_size)
    else
      let item_size := key_size + value_size
      if key_offset < value_offset ∧ ¬fast_key then
        let adj := (maxAlign : Int) * (1 + cdiv ((value_size : Int) - 16 - 1) (maxAlign : Int))
        (key_offset, value_offset + adj.toNat, item_size + adj.toNat)
      else if key_offset > value_offset ∧ ¬fast_value then
        let adj := (maxAlign : Int) * (1 + cdiv ((key_size : Int) - 16 - 1) (maxAlign : Int))
        (key_offset + adj.toNat, value_offset, item_size + adj.toNat)
      else (key_offset, value_offset, item_size)
  { key_size := key_size
    value_size := value_size
    lf_num := lf_num
    lf_den := lf_den
    max_entries := max_entries
    entries_mask := max_entries - 1
    max_items := max_items
    item_size := layout.2.2
    key_offset := layout.1
    value_offset := layout.2.1
    short_key := short_key
    fast_key := fast_key
    fast_value := fast_value
    fast_mode := fast_mode
    use_crc := use_crc
    filler := filler }

/-- Model of `ihtCacheCreate` with the default load factor 0.40 (= 2/5):
zero-initialised storage (`calloc`). -/
def ihtCacheCreate (min_capacity key_size value_size : Nat)
    (filler : Option (List Nat → Option (List Nat))) (use_crc : Bool) : Cache :=
  { cfg := setup min_capacity key_size value_size 2 5 filler use_crc
    states := fun _ => 0
    entries := fun _ => ⟨0, 0⟩
    items := fun _ _ => 0
    item_count := 0
    evict_index := 0
    work_key := List.replicate 16 0
    value_destroyer := false
    destroyed := []
    stats := ⟨0, ⟨0, 0⟩, ⟨0, 0⟩, ⟨0, 0⟩, ⟨0, 0⟩, ⟨0, 0⟩⟩ }

/-- Model of `ihtCacheSetValueDestroyer`: record that a destroyer callback is
registered. -/
def ihtCacheSetValueDestroyer (c : Cache) (present : Bool) : Cache :=
  { c with value_destroyer := present }

/-- Model of `key_hash`: returns the updated scratch `work_key` (mutated on
the short-key path) together with the 32-bit hash.  `mem` is the caller's
key buffer as visible to the C code (for the general path with a key length
that is not a multiple of 8 the lane loop reads past `key_size`). -/
def key_hash (cfg : Config) (work_key : List Nat) (mem : List Nat) : List Nat × Nat :=
  if cfg.short_key then
    let wk := mem.take cfg.key_size ++ work_key.drop cfg.key_size
    (wk, fast_key_hash cfg.use_crc wk)
  else if cfg.fast_key then
    (work_key, fast_key_hash cfg.use_crc (mem.take 16))
  else
    (work_key, slow_key_hash cfg.key_size mem)

/-- Model of `next_entry`: advance the probe cursor under the power-of-two
mask. -/
def next_entry (cfg : Config) (index : Nat) : Nat :=
  (index + 1) &&& cfg.entries_mask

/-- A slot is empty for probing purposes iff its state is `EMPTY` (0) or
`REMOVED` (1); occupied iff the state is at least `MIN_AGE` (2). -/
def empty_slot (state : Nat) : Bool := state ≤ 1

/-- The key bytes stored in the item referenced by slot `s`. -/
def storedKeyAt (c : Cache) (s : Nat) : List Nat :=
  readBytes (c.items (c.entries s).item_index) c.cfg.key_offset c.cfg.key_size

/-- The value bytes stored in the item referenced by slot `s`. -/
def storedValueAt (c : Cache) (s : Nat) : List Nat :=
  readBytes (c.items (c.entries s).item_index) c.cfg.value_offset c.cfg.value_size

/-- Result of a probe loop: a matching slot or the first empty slot, with
the probe distance walked. -/
inductive ProbeResult where
  | hit (index scans : Nat)
  | miss (index scans : Nat)
deriving DecidableEq, Repr

/-- The shared linear-probe loop shape of `lookup_entry`,
`fast_lookup_entry` and `alloc_new_entry`: walk from `index` while slots are
occupied, stopping at the first slot satisfying `hitAt` (a hit) or the first
empty slot (a miss). -/
def probe_loop (c : Cache) (hitAt : Nat → Bool) : Nat → Nat → Nat → Option ProbeResult
  | _, _, 0 => none
  | index, scans, fuel + 1 =>
    if empty_slot (c.states index) then some (.miss index scans)
    else if hitAt index then some (.hit index scans)
    else probe_loop c hitAt (next_entry c.cfg index) (scans + 1) fuel

/-- The hit test of `lookup_entry` and `alloc_new_entry`: cached hash equal
and stored key bytes equal to the caller's key (`memcmp` over `key_size`
bytes). -/
def key_match (c : Cache) (hash : Nat) (mem : List Nat) (index : Nat) : Bool :=
  (c.entries index).hash_value = hash ∧ storedKeyAt c index = mem.take c.cfg.key_size

/-- Model of `fast_key_equals`: compare two 16-byte keys as two 64-bit
lanes. -/
def fast_key_equals (k1 k2 : List Nat) : Bool :=
  le64 (k1.take 8) % 2 ^ 64 = le64 (k2.take 8) % 2 ^ 64 ∧
    le64 ((k1.drop 8).take 8) % 2 ^ 64 = le64 ((k2.drop 8).take 8) % 2 ^ 64

/-- The hit test of `fast_lookup_entry`: cached hash equal and
`fast_key_equals` on the item's 16 leading key bytes. -/
def fast_key_match (c : Cache) (hash : Nat) (key : List Nat) (index : Nat) : Bool :=
  (c.entries index).hash_value = hash ∧
    fast_key_equals (readBytes (c.items (c.entries index).item_index) 0 16) key

/-- Model of `bump_counter`. -/
def bump_counter (ctr : Counter) (scans : Nat) : Counter :=
  ⟨ctr.count + 1, ctr.scans + scans⟩

/-- Model of `touch_entry`: increment the slot's age unless it is already
`MAX_AGE` (7). -/
def touch_entry (c : Cache) (index : Nat) : Cache :=
  if c.states index < 7 then { c with states := upd c.states index (c.states index + 1) } else c

/-- The cache state after the entry phase of `lookup_entry`: the scratch
key updated by `key_hash` and the `lookups` counter bumped. -/
def lookup_c1 (c : Cache) (mem : List Nat) : Cache :=
  { c with work_key := (key_hash c.cfg c.work_key mem).1,
           stats := { c.stats with lookups := c.stats.lookups + 1 } }

/-- The cache resulting from a `lookup_entry` hit at slot `s` with probe
distance `n`: hit counter bumped and the slot touched. -/
def lookup_hit_cache (c : Cache) (mem : List Nat) (s n : Nat) : Cache :=
  touch_entry
    { lookup_c1 c mem with stats :=
        { (lookup_c1 c mem).stats with
            hits := bump_counter (lookup_c1 c mem).stats.hits n } } s

/-- The cache resulting from a `lookup_entry` miss with probe distance `n`:
miss counter bumped. -/
def lookup_miss_cache (c : Cache) (mem : List Nat) (n : Nat) : Cache :=
  { lookup_c1 c mem with stats :=
      { (lookup_c1 c mem).stats with
          misses := bump_counter (lookup_c1 c mem).stats.misses n } }

/-- Model of `lookup_entry`: hash, probe from the home slot; on hit bump the
hit counter and touch the slot, on miss bump the miss counter.  Returns the
found slot (or `none` for a miss) together with the updated cache; the outer
`none` marks probe-fuel exhaustion. -/
def lookup_entry (c : Cache) (mem : List Nat) : Option (Option Nat × Cache) :=
  match probe_loop (lookup_c1 c mem)
      (key_match (lookup_c1 c mem) (key_hash c.cfg c.work_key mem).2 mem)
      ((key_hash c.cfg c.work_key mem).2 &&& c.cfg.entries_mask) 0 c.cfg.max_entries with
  | none => none
  | some (.hit s n) => some (some s, lookup_hit_cache c mem s n)
  | some (.miss _ n) => some (none, lookup_miss_cache c mem n)

/-- Model of `fast_lookup_entry`: the first probe position is unrolled, then
the loop proceeds from the next slot with `scans = 1`. -/
def fast_c1 (c : Cache) : Cache :=
  { c with stats := { c.stats with lookups := c.stats.lookups + 1 } }

/-- The home slot of a fast key. -/
def fast_home (c : Cache) (key : List Nat) : Nat :=
  fast_key_hash c.cfg.use_crc key &&& c.cfg.entries_mask

def fast_lookup_entry (c : Cache) (key : List Nat) : Option (Option Nat × Cache) :=
  if empty_slot (c.states (fast_home c key)) then
    some (none, { fast_c1 c with stats := { (fast_c1 c).stats with
        misses := bump_counter (fast_c1 c).stats.misses 0 } })
  else if fast_key_match c (fast_key_hash c.cfg.use_crc key) key (fast_home c key) then
    some (some (fast_home c key),
      touch_entry { fast_c1 c with stats := { (fast_c1 c).stats with
          hits := bump_counter (fast_c1 c).stats.hits 0 } } (fast_home c key))
  else
    match probe_loop (fast_c1 c) (fast_key_match (fast_c1 c) (fast_key_hash c.cfg.use_crc key) key)
        (next_entry c.cfg (fast_home c key)) 1 c.cfg.max_entries with
    | none => none
    | some (.hit s n) =>
      some (some s,
        touch_entry { fast_c1 c with stats := { (fast_c1 c).stats with
            hits := bump_counter (fast_c1 c).stats.hits n } } s)
    | some (.miss _ n) =>
      some (none, { fast_c1 c with stats := { (fast_c1 c).stats with
          misses := bump_counter (fast_c1 c).stats.misses n } })

/-- One occupied-slot examination recorded by the victim-search loop: the
slot, its state when examined, and whether the loop decremented it. -/
structure Exam where
  slot : Nat
  state : Nat
  decayed : Bool
deriving DecidableEq, Repr

/-- Output of the victim-search loop. -/
structure VictimOut where
  states : Nat → Nat
  evict_index : Nat
  scans : Nat
  victim_index : Nat
  victim_state : Nat
  log : List Exam

/-- The loop of `find_victim`.  `search` is the remaining budget
(`MAX_EVICTION_SEARCH` initially); empty slots are skipped without spending
budget; an examined occupied slot better than the current candidate is
adopted, and adopting a `MIN_AGE` slot ends the search (`search = 0`);
every other examined occupied slot is decremented by one.  `log` is a ghost
record of the occupied-slot examinations used to state the specification's
claims; it does not influence the computation.  (The C body reads
`states[index]` once into `slot_state`; here the read is repeated verbatim.) -/
def find_victim_loop (cfg : Config) (states : Nat → Nat)
    (search index scans victim_index victim_state : Nat) (log : List Exam) :
    Nat → Option VictimOut
  | 0 => none
  | fuel + 1 =>
    if search = 0 then some ⟨states, index, scans, victim_index, victim_state, log⟩
    else
      if empty_slot (states index) then
        find_victim_loop cfg states search (next_entry cfg index) (scans + 1)
          victim_index victim_state log fuel
      else if states index < victim_state then
        if states index = 2 then
          find_victim_loop cfg states 0 (next_entry cfg index) (scans + 1)
            index (states index) (log ++ [⟨index, states index, false⟩]) fuel
        else
          find_victim_loop cfg (upd states index (states index - 1)) (search - 1)
            (next_entry cfg index) (scans + 1) index (states index)
            (log ++ [⟨index, states index, true⟩]) fuel
      else
        find_victim_loop cfg (upd states index (states index - 1)) (search - 1)
          (next_entry cfg index) (scans + 1) victim_index victim_state
          (log ++ [⟨index, states index, true⟩]) fuel

/-- Model of `find_victim`: run the search from the rolling cursor
`evict_index` with budget 16 and initial candidate threshold
`SLOT_MAX_AGE + 1 = 8`; store the final cursor, bump the evictions counter,
and return the victim slot (with the ghost examination log). -/
def find_victim (c : Cache) : Option (Nat × List Exam × Cache) :=
  match find_victim_loop c.cfg c.states 16 c.evict_index 0 c.evict_index 8 []
      (16 * c.cfg.max_entries + c.cfg.max_entries + 1) with
  | none => none
  | some o =>
    some (o.victim_index, o.log,
      { c with states := o.states, evict_index := o.evict_index,
               stats := { c.stats with evictions := bump_counter c.stats.evictions o.scans } })

/-- The insertion probe of `alloc_new_entry` (everything after the victim
phase): hash the key and probe from its home slot; if an occupied slot with
the same hash and key is found, resurrect the tentatively freed victim (if
any) and count an update; otherwise install the new entry at the first
empty slot with `INITIAL_STATE = MIN_AGE = 2` and count an add. -/
def alloc_c1 (c : Cache) (mem : List Nat) : Cache :=
  { c with work_key := (key_hash c.cfg c.work_key mem).1 }

/-- The cache resulting from the update path of `alloc_new_entry`: the
tentatively freed victim (if any) is resurrected and the updates counter
bumped. -/
def alloc_update_cache (c : Cache) (mem : List Nat) (victim : Option (Nat × Nat))
    (n : Nat) : Cache :=
  let c2 :=
    match victim with
    | some (vidx, vstate) =>
      { alloc_c1 c mem with states := upd (alloc_c1 c mem).states vidx vstate,
                            item_count := (alloc_c1 c mem).item_count + 1 }
    | none => alloc_c1 c mem
  { c2 with stats := { c2.stats with updates := bump_counter c2.stats.updates n } }

/-- The cache resulting from the insert path of `alloc_new_entry`: new entry
installed at the empty slot `s` with `INITIAL_STATE = MIN_AGE`, adds counter
bumped, item count incremented. -/
def alloc_insert_cache (c : Cache) (mem : List Nat) (newIdx s n : Nat) : Cache :=
  { alloc_c1 c mem with
      entries := upd (alloc_c1 c mem).entries s ⟨(key_hash c.cfg c.work_key mem).2, newIdx⟩,
      states := upd (alloc_c1 c mem).states s 2,
      item_count := (alloc_c1 c mem).item_count + 1,
      stats := { (alloc_c1 c mem).stats with
          adds := bump_counter (alloc_c1 c mem).stats.adds n } }

def alloc_finish (c : Cache) (mem : List Nat) (victim : Option (Nat × Nat))
    (newIdx : Nat) : Option (Nat × Cache) :=
  match probe_loop (alloc_c1 c mem)
      (key_match (alloc_c1 c mem) (key_hash c.cfg c.work_key mem).2 mem)
      ((key_hash c.cfg c.work_key mem).2 &&& c.cfg.entries_mask) 0 c.cfg.max_entries with
  | none => none
  | some (.hit s n) => some (s, alloc_update_cache c mem victim n)
  | some (.miss s n) => some (s, alloc_insert_cache c mem newIdx s n)

/-- Model of `alloc_new_entry`: when the pool is full, find a victim,
tentatively free its slot (state `EMPTY`, `item_count` decremented) and
reuse its item index; then run the insertion probe.  Note that the C code
frees the victim's item without ever invoking the value destroyer. -/
def alloc_new_entry (c : Cache) (mem : List Nat) : Option (Nat × Cache) :=
  if c.item_count ≥ c.cfg.max_items then
    match find_victim c with
    | none => none
    | some (vidx, _, c1) =>
      alloc_finish
        { c1 with states := upd c1.states vidx 0, item_count := c1.item_count - 1 }
        mem (some (vidx, c1.states vidx)) ((c1.entries vidx).item_index)
  else
    alloc_finish c mem none c.item_count

/-- Model of `store_item`: copy `key_size` key bytes to `key_offset` and then
`value_size` value bytes to `value_offset` of the item (two `memcpy`s, in
this order). -/
def store_item (c : Cache) (item_index : Nat) (mem value : List Nat) : Cache :=
  let it0 := c.items item_index
  let it1 := writeBytes it0 c.cfg.key_offset (mem.take c.cfg.key_size)
  let it2 := writeBytes it1 c.cfg.value_offset (value.take c.cfg.value_size)
  { c with items := upd c.items item_index it2 }

/-- Model of `calc_new_entry`: fail if no filler; otherwise run the filler
(modelled as a pure function of the key bytes) and on success allocate and
store. -/
def calc_new_entry (c : Cache) (mem : List Nat) : Option (Option Nat × Cache) :=
  match c.cfg.filler with
  | none => some (none, c)
  | some f =>
    match f (mem.take c.cfg.key_size) with
    | none => some (none, c)
    | some v =>
      match alloc_new_entry c mem with
      | none => none
      | some (s, c1) => some (some s, store_item c1 ((c1.entries s).item_index) mem v)

/-- Model of `ihtCachePut`.  The returned value is the success flag. -/
def ihtCachePut (c : Cache) (mem value : List Nat) : Option (Bool × Cache) :=
  match alloc_new_entry c mem with
  | none => none
  | some (s, c1) => some (true, store_item c1 ((c1.entries s).item_index) mem value)

/-- Model of `ihtCacheLookup`: the first component is `some v` when the
operation succeeded and wrote the value bytes `v` to `value_out`, and `none`
when it failed (in which case `value_out` is not written). -/
def ihtCacheLookup (c : Cache) (mem : List Nat) : Option (Option (List Nat) × Cache) :=
  match lookup_entry c mem with
  | none => none
  | some (none, c1) => some (none, c1)
  | some (some s, c1) => some (some (storedValueAt c1 s), c1)

/-- Model of `ihtCacheFetch`: lookup, then on miss compute-and-insert via
the filler.  Result convention as for `ihtCacheLookup`. -/
def ihtCacheFetch (c : Cache) (mem : List Nat) : Option (Option (List Nat) × Cache) :=
  match lookup_entry c mem with
  | none => none
  | some (some s, c1) => some (some (storedValueAt c1 s), c1)
  | some (none, c1) =>
    match calc_new_entry c1 mem with
    | none => none
    | some (none, c2) => some (none, c2)
    | some (some s, c2) => some (some (storedValueAt c2 s), c2)

/-- Model of `remove_all`: invoke the value destroyer (ghost-logged) on every
occupied slot's value in slot order, then zero the directory, the state
array and the item pool. -/
def remove_all (c : Cache) : Cache :=
  let destroyedNew :=
    if c.value_destroyer then
      c.destroyed ++
        (((List.range c.cfg.max_entries).filter (fun s => ¬empty_slot (c.states s))).map
          (fun s => storedValueAt c s))
    else c.destroyed
  { c with destroyed := destroyedNew, item_count := 0,
           states := fun _ => 0, entries := fun _ => ⟨0, 0⟩, items := fun _ _ => 0 }

/-- The public mutating/reading operations considered by the claims. -/
inductive Op where
  | put (key value : List Nat)
  | fetch (key : List Nat)
  | lookup (key : List Nat)

/-- Apply one public operation, keeping only the resulting cache. -/
def applyOp (c : Cache) : Op → Option Cache
  | .put k v => (ihtCachePut c k v).map Prod.snd
  | .fetch k => (ihtCacheFetch c k).map Prod.snd
  | .lookup k => (ihtCacheLookup c k).map Prod.snd

/-- Run a list of operations left to right. -/
def runOps : Cache → List Op → Option Cache
  | c, [] => some c
  | c, op :: ops =>
    match applyOp c op with
    | none => none
    | some c1 => runOps c1 ops

/-- Well-formedness of an operation with respect to a configuration: caller
buffers have exactly the configured sizes. -/
def Op.wf (cfg : Config) : Op → Prop
  | .put k v => k.length = cfg.key_size ∧ v.length = cfg.value_size
  | .fetch k => k.length = cfg.key_size
  | .lookup k => k.length = cfg.key_size

/-- One public-operation step between cache states. -/
inductive Step : Cache → Cache → Prop where
  | put (c c' : Cache) (k v : List Nat) (hk : k.length = c.cfg.key_size)
      (hv : v.length = c.cfg.value_size) (b : Bool)
      (h : ihtCachePut c k v = some (b, c')) : Step c c'
  | fetch (c c' : Cache) (k : List Nat) (hk : k.length = c.cfg.key_size)
      (r : Option (List Nat)) (h : ihtCacheFetch c k = some (r, c')) : Step c c'
  | lookup (c c' : Cache) (k : List Nat) (hk : k.length = c.cfg.key_size)
      (r : Option (List Nat)) (h : ihtCacheLookup c k = some (r, c')) : Step c c'

/-- Reachability by public operations. -/
def Reachable (c0 c : Cache) : Prop := Relation.ReflTransGen Step c0 c

/-- The number of occupied slots among the first `n` directory slots. -/
def occCount (f : Nat → Nat) (n : Nat) : Nat :=
  (List.range n).countP (fun s => decide (2 ≤ f s))

/-- Number of decayed examinations of slot `s` recorded in a log. -/
def decayCount (s : Nat) (log : List Exam) : Nat :=
  log.countP (fun e => decide (e.slot = s) && e.decayed)

/-- Full characterisation of one `find_victim_loop` run relative to its
initial arguments: the new examination log, the decay it causes, occupancy
preservation, the early stop on a `MIN_AGE` adoption, and the minimality and
occupancy of the returned victim. -/
def VSpec (k : Nat) (states0 : Nat → Nat) (search0 vi0 vs0 : Nat) (log0 : List Exam)
    (out : VictimOut) : Prop :=
  ∃ newLog,
    out.log = log0 ++ newLog ∧
    newLog.length ≤ search0 ∧
    (1 ≤ search0 → newLog ≠ []) ∧
    (∀ e ∈ newLog, 2 ≤ e.state ∧ e.state ≤ 7 ∧ e.slot < 2 ^ k) ∧
    (∀ s, out.states s + decayCount s newLog = states0 s) ∧
    (∀ s, 2 ≤ out.states s ↔ 2 ≤ states0 s) ∧
    (∀ e ∈ newLog, e.decayed = false →
      e.state = 2 ∧ out.victim_index = e.slot ∧ newLog.getLast? = some e) ∧
    (∀ e ∈ newLog, out.victim_state ≤ e.state) ∧
    out.victim_state ≤ vs0 ∧
    2 ≤ out.victim_state ∧
    (out.victim_state = vs0 → out.victim_index = vi0) ∧
    (out.victim_state < vs0 →
      ∃ e, e ∈ newLog ∧ e.slot = out.victim_index ∧ e.state = out.victim_state) ∧
    (out.victim_state ≤ 7 → 2 ≤ out.states out.victim_index) ∧
    out.victim_index < 2 ^ k ∧
    out.evict_index < 2 ^ k

/-- Well-formedness of a configuration's directory geometry. -/
def Config.wf (cfg : Config) : Prop :=
  (∃ k, cfg.max_entries = 2 ^ k) ∧ cfg.entries_mask = cfg.max_entries - 1 ∧
    1 ≤ cfg.max_items ∧ cfg.max_items < cfg.max_entries

/-- The state invariant maintained by every public operation. -/
structure Inv (c : Cache) : Prop where
  wf : c.cfg.wf
  count_eq : occCount c.states c.cfg.max_entries = c.item_count
  count_le : c.item_count ≤ c.cfg.max_items
  state_le : ∀ s, c.states s ≤ 7
  state_ne1 : ∀ s, c.states s ≠ 1
  evict_lt : c.evict_index < c.cfg.max_entries

/-- The home slot recorded for slot `s`: the cached hash value masked into
the directory. -/
def homeOf (c : Cache) (s : Nat) : Nat :=
  (c.entries s).hash_value &&& c.cfg.entries_mask

/-- No two occupied directory slots hold bytewise-equal keys. -/
def KeysUnique (c : Cache) : Prop :=
  ∀ s t, s < c.cfg.max_entries → t < c.cfg.max_entries →
    2 ≤ c.states s → 2 ≤ c.states t →
    storedKeyAt c s = storedKeyAt c t → s = t

/-- The key-uniqueness invariant for 16-byte-key configurations, maintained
by every non-evicting public operation: on top of `Inv`, the cached hash of
every occupied slot is the hash of its stored key, every occupied slot is
connected to its home slot by a gap-free run of occupied slots (the probe
chain), item indices of occupied slots are in range and injective, and the
stored keys are pairwise distinct. -/
structure KeyInv (c : Cache) : Prop where
  inv : Inv c
  ks16 : c.cfg.key_size = 16
  ko0 : c.cfg.key_offset = 0
  vo16 : 16 ≤ c.cfg.value_offset
  sk : c.cfg.short_key = false
  fk : c.cfg.fast_key = true
  hash_eq : ∀ s, s < c.cfg.max_entries → 2 ≤ c.states s →
    (c.entries s).hash_value = fast_key_hash c.cfg.use_crc (storedKeyAt c s)
  chain : ∀ s, s < c.cfg.max_entries → 2 ≤ c.states s →
    ∃ d, s = (homeOf c s + d) % c.cfg.max_entries ∧
      ∀ t, t < d → 2 ≤ c.states ((homeOf c s + t) % c.cfg.max_entries)
  idx_lt : ∀ s, s < c.cfg.max_entries → 2 ≤ c.states s →
    (c.entries s).item_index < c.item_count
  idx_inj : ∀ s t, s < c.cfg.max_entries → t < c.cfg.max_entries →
    2 ≤ c.states s → 2 ≤ c.states t →
    (c.entries s).item_index = (c.entries t).item_index → s = t
  uniq : KeysUnique c

/-- A 16-byte fast key with 64-bit lanes `v0` (little-endian) and `v1 = 0`. -/
def mk16 (v0 : Nat) : List Nat :=
  (List.range 8).map (fun i => v0 / 256 ^ i % 256) ++ List.replicate 8 0

/-- A 16-byte value whose first byte tags it. -/
def vald (t : Nat) : List Nat := t % 256 :: List.replicate 15 0

/-- An 8-byte buffer whose first byte tags it. -/
def mk8 (i : Nat) : List Nat := i % 256 :: List.replicate 7 0

/-- The configuration produced by `setup` for `key_size = 24`,
`value_size = 1` at the default load factor. -/
def cfg241 : Config := setup 16 24 1 2 5 none false

/-- The configuration produced by `setup` for `key_size = 8`,
`value_size = 24` at the default load factor. -/
def cfg824 : Config := setup 16 8 24 2 5 none false

/-- A 24-byte key whose 17th byte (offset 16) is `0xAA`. -/
def k24 : List Nat := (List.range 24).map (fun i => if i = 16 then 0xAA else i + 1)

/-- A fresh cache with `key_size = 24`, `value_size = 1`. -/
def c241 : Cache := ihtCacheCreate 16 24 1 none false

/-- The cache after `Put(k24, [0xBB])` on `c241`. -/
def c241a : Cache := ((ihtCachePut c241 k24 [0xBB]).map Prod.snd).getD c241

/-- The cache after a second `Put(k24, [0xCC])` on `c241a`. -/
def c241b : Cache := ((ihtCachePut c241a k24 [0xCC]).map Prod.snd).getD c241

/-- A 20-byte key with bytes 1..20. -/
def k20 : List Nat := (List.range 20).map (fun i => i + 1)

/-- The 16-byte fast keys (as `v0` lane values) of the duplicate-key run:
two keys with home slot 0 (68 and 167), one with home slot 2 (30), and 22
fillers with home slots 4..25. -/
def c10Keys : List Nat :=
  [68, 167, 30, 142, 15, 6, 191, 34, 45, 72, 97, 26, 200, 202, 11, 164, 36, 88, 23, 49,
   12, 80, 71, 2, 67]

/-- The duplicate-key operation sequence: fill the item pool with 25 keys,
touch key 167 five times so it is not the victim, insert a new key (57, home
slot 40) which evicts the slot of key 68 and breaks the probe chain through
slot 0, then re-put key 167: its lookup misses (the chain is broken at the
now-empty slot 0) and a second copy of key 167 is inserted. -/
def c10Ops : List Op :=
  ((List.range 25).map (fun i => Op.put (mk16 (c10Keys.getD i 0)) (vald (i + 1)))) ++
  (List.replicate 5 (Op.lookup (mk16 167))) ++
  [Op.put (mk16 57) (vald 99), Op.put (mk16 167) (vald 222)]

/-- A fresh fast-mode cache (`key_size = value_size = 16`). -/
def c10Init : Cache := ihtCacheCreate 16 16 16 none false

/-- The final cache of the duplicate-key run. -/
def c10Final : Cache := (runOps c10Init c10Ops).getD c10Init

/-- Operations filling the pool with 25 distinct 8-byte keys and then adding
a 26th, which forces an eviction. -/
def c4Ops : List Op :=
  ((List.range 25).map (fun i => Op.put (mk8 (i + 1)) (mk8 (i + 1)))) ++
  [Op.put (mk8 77) (mk8 77)]

/-- A fresh cache with a value destroyer registered. -/
def c4Init : Cache := ihtCacheSetValueDestroyer (ihtCacheCreate 16 8 8 none false) true

/-- The final cache of the eviction-with-destroyer run. -/
def c4Final : Cache := (runOps c4Init c4Ops).getD c4Init

/-- A 64-slot cache whose only occupied slot is 20, at age 5: a concrete
input for the victim-search characterisation. -/
def c6W : Cache :=
  { cfg := setup 16 16 16 2 5 none false
    states := fun s => if s = 20 then 5 else 0
    entries := fun _ => ⟨0, 0⟩
    items := fun _ _ => 0
    item_count := 1
    evict_index := 0
    work_key := List.replicate 16 0
    value_destroyer := false
    destroyed := []
    stats := ⟨0, ⟨0, 0⟩, ⟨0, 0⟩, ⟨0, 0⟩, ⟨0, 0⟩, ⟨0, 0⟩⟩ }

/-- The cache resulting from the insert path of `alloc_new_entry` followed
by `store_item` into the freshly allocated item (the tail of a non-evicting
`Put`/`Fetch` insert). -/
def insert_store_cache (c : Cache) (mem v : List Nat) (s n : Nat) : Cache :=
  store_item (alloc_insert_cache c mem c.item_count s n)
    ((alloc_insert_cache c mem c.item_count s n).entries s).item_index mem v

theorem upd_self {α : Type} (f : Nat → α) (i : Nat) (v : α) : upd f i v i = v := by
  simp [upd]

theorem upd_ne {α : Type} (f : Nat → α) (i : Nat) (v : α) {j : Nat} (h : j ≠ i) :
    upd f i v j = f j := by
  simp [upd, h]

theorem empty_slot_iff (st : Nat) : empty_slot st = true ↔ st ≤ 1 := by
  simp [empty_slot]

theorem empty_slot_false_iff (st : Nat) : empty_slot st = false ↔ 2 ≤ st := by
  simp [empty_slot]; omega

theorem key_match_iff (c : Cache) (hash : Nat) (mem : List Nat) (i : Nat) :
    key_match c hash mem i = true ↔
      (c.entries i).hash_value = hash ∧ storedKeyAt c i = mem.take c.cfg.key_size := by
  simp [key_match]

theorem next_entry_eq (cfg : Config) (k : Nat) (hmask : cfg.entries_mask = 2 ^ k - 1)
    (i : Nat) : next_entry cfg i = (i + 1) % 2 ^ k := by
  rw [next_entry, hmask, Nat.and_pow_two_sub_one_eq_mod]

theorem land_mask_lt (cfg : Config) (k : Nat) (hmask : cfg.entries_mask = 2 ^ k - 1)
    (h : Nat) : h &&& cfg.entries_mask < 2 ^ k := by
  rw [hmask, Nat.and_pow_two_sub_one_eq_mod]
  exact Nat.mod_lt _ (Nat.pos_pow_of_pos k (by omega))

theorem shift_mod (index t k : Nat) :
    ((index + 1) % 2 ^ k + t) % 2 ^ k = (index + (t + 1)) % 2 ^ k := by
  rw [Nat.mod_add_mod]
  congr 1
  omega

theorem exists_step_dist (k index s : Nat) (hi : index < 2 ^ k) (hs : s < 2 ^ k) :
    ∃ d, d < 2 ^ k ∧ (index + d) % 2 ^ k = s := by
  refine ⟨(s + 2 ^ k - index) % 2 ^ k, Nat.mod_lt _ (by positivity), ?_⟩
  rw [Nat.add_mod_mod]
  have h1 : index + (s + 2 ^ k - index) = s + 2 ^ k := by omega
  rw [h1, Nat.add_mod_right, Nat.mod_eq_of_lt hs]

theorem occCount_succ (f : Nat → Nat) (n : Nat) :
    occCount f (n + 1) = occCount f n + (if 2 ≤ f n then 1 else 0) := by
  rw [occCount, occCount, List.range_succ, List.countP_append]
  congr 1
  simp [List.countP_cons]

theorem occCount_congr (f g : Nat → Nat) (n : Nat)
    (h : ∀ s, s < n → (2 ≤ f s ↔ 2 ≤ g s)) : occCount f n = occCount g n := by
  induction n with
  | zero => rfl
  | succ m ih =>
    rw [occCount_succ, occCount_succ, ih (fun s hs => h s (by omega))]
    have := h m (by omega)
    by_cases h2 : 2 ≤ f m
    · rw [if_pos h2, if_pos (this.mp h2)]
    · rw [if_neg h2, if_neg (fun hg => h2 (this.mpr hg))]

theorem occCount_upd_le (f : Nat → Nat) (n i v : Nat) (hi : i < n) (hocc : 2 ≤ f i)
    (hv : v ≤ 1) : occCount (upd f i v) n + 1 = occCount f n := by
  induction n with
  | zero => omega
  | succ m ih =>
    rw [occCount_succ, occCount_succ]
    by_cases him : i = m
    · subst him
      have h1 : upd f i v i = v := upd_self f i v
      have hcong : occCount (upd f i v) i = occCount f i :=
        occCount_congr _ _ _ (fun s hs => by rw [upd_ne _ _ _ (by omega)])
      rw [h1, if_neg (by omega), if_pos hocc]
      omega
    · have heq : upd f i v m = f m := upd_ne _ _ _ (by omega)
      rw [heq]
      have := ih (by omega)
      split <;> omega

theorem occCount_upd_occ (f : Nat → Nat) (n i v : Nat) (hi : i < n) (hemp : f i ≤ 1)
    (hv : 2 ≤ v) : occCount (upd f i v) n = occCount f n + 1 := by
  induction n with
  | zero => omega
  | succ m ih =>
    rw [occCount_succ, occCount_succ]
    by_cases him : i = m
    · subst him
      have h1 : upd f i v i = v := upd_self f i v
      have hcong : occCount (upd f i v) i = occCount f i :=
        occCount_congr _ _ _ (fun s hs => by rw [upd_ne _ _ _ (by omega)])
      rw [h1, if_pos hv, if_neg (by omega)]
      omega
    · have heq : upd f i v m = f m := upd_ne _ _ _ (by omega)
      rw [heq]
      have := ih (by omega)
      split <;> omega

theorem exists_empty_slot (f : Nat → Nat) (n : Nat) (h : occCount f n < n) :
    ∃ s, s < n ∧ f s ≤ 1 := by
  by_contra hc
  push_neg at hc
  have : occCount f n = n := by
    have : (List.range n).countP (fun s => decide (2 ≤ f s)) = (List.range n).length := by
      rw [List.countP_eq_length]
      intro a ha
      simp only [List.mem_range] at ha
      simpa using hc a ha
    simpa [occCount] using this
  omega

theorem probe_loop_isSome (c : Cache) (hitAt : Nat → Bool) (k : Nat)
    (hmask : c.cfg.entries_mask = 2 ^ k - 1) :
    ∀ fuel index scans, index < 2 ^ k →
      (∃ d, d < fuel ∧ c.states ((index + d) % 2 ^ k) ≤ 1) →
      (probe_loop c hitAt index scans fuel).isSome = true := by
  intro fuel
  induction fuel with
  | zero => intro index scans _ ⟨d, hd, _⟩; omega
  | succ f ih =>
    intro index scans hidx ⟨d, hd, hempty⟩
    rw [probe_loop]
    by_cases hse : empty_slot (c.states index) = true
    · rw [if_pos hse]; rfl
    · rw [if_neg (by simp [hse])]
      by_cases hh : hitAt index = true
      · rw [if_pos hh]; rfl
      · rw [if_neg (by simp [hh])]
        rw [next_entry_eq c.cfg k hmask]
        have hd0 : d ≠ 0 := by
          intro h0
          rw [h0, Nat.add_zero, Nat.mod_eq_of_lt hidx] at hempty
          rw [empty_slot_iff] at hse
          omega
        refine ih _ (scans + 1) (Nat.mod_lt _ (by positivity)) ⟨d - 1, by omega, ?_⟩
        rw [shift_mod]
        have : d - 1 + 1 = d := by omega
        rw [this]
        exact hempty

theorem probe_loop_hit_spec (c : Cache) (hitAt : Nat → Bool) (k : Nat)
    (hmask : c.cfg.entries_mask = 2 ^ k - 1) :
    ∀ fuel index scans s n, index < 2 ^ k →
      probe_loop c hitAt index scans fuel = some (.hit s n) →
      ∃ d, n = scans + d ∧ s = (index + d) % 2 ^ k ∧ hitAt s = true ∧ 2 ≤ c.states s ∧
        ∀ t, t < d → 2 ≤ c.states ((index + t) % 2 ^ k) ∧
          hitAt ((index + t) % 2 ^ k) = false := by
  intro fuel
  induction fuel with
  | zero => intro index scans s n _ h; simp [probe_loop] at h
  | succ f ih =>
    intro index scans s n hidx h
    rw [probe_loop] at h
    by_cases hse : empty_slot (c.states index) = true
    · rw [if_pos hse] at h; simp at h
    · rw [if_neg (by simp [hse])] at h
      by_cases hh : hitAt index = true
      · rw [if_pos hh] at h
        simp only [Option.some.injEq, ProbeResult.hit.injEq] at h
        obtain ⟨hs, hn⟩ := h
        refine ⟨0, by omega, ?_, ?_, ?_, by omega⟩
        · rw [Nat.add_zero, Nat.mod_eq_of_lt hidx]; omega
        · rw [← hs]; exact hh
        · rw [← hs, ← empty_slot_false_iff]; simpa using hse
      · rw [if_neg (by simp [hh])] at h
        rw [next_entry_eq c.cfg k hmask] at h
        obtain ⟨d, hd1, hd2, hd3, hd4, hd5⟩ :=
          ih ((index + 1) % 2 ^ k) (scans + 1) s n (Nat.mod_lt _ (by positivity)) h
        refine ⟨d + 1, by omega, by rw [← shift_mod]; exact hd2, hd3, hd4, ?_⟩
        intro t ht
        match t with
        | 0 =>
          rw [Nat.add_zero, Nat.mod_eq_of_lt hidx]
          exact ⟨by rw [← empty_slot_false_iff]; simpa using hse, by simpa using hh⟩
        | t' + 1 =>
          have := hd5 t' (by omega)
          rw [shift_mod] at this
          exact this

theorem probe_loop_miss_spec (c : Cache) (hitAt : Nat → Bool) (k : Nat)
    (hmask : c.cfg.entries_mask = 2 ^ k - 1) :
    ∀ fuel index scans s n, index < 2 ^ k →
      probe_loop c hitAt index scans fuel = some (.miss s n) →
      ∃ d, n = scans + d ∧ s = (index + d) % 2 ^ k ∧ c.states s ≤ 1 ∧
        ∀ t, t < d → 2 ≤ c.states ((index + t) % 2 ^ k) ∧
          hitAt ((index + t) % 2 ^ k) = false := by
  intro fuel
  induction fuel with
  | zero => intro index scans s n _ h; simp [probe_loop] at h
  | succ f ih =>
    intro index scans s n hidx h
    rw [probe_loop] at h
    by_cases hse : empty_slot (c.states index) = true
    · rw [if_pos hse] at h
      simp only [Option.some.injEq, ProbeResult.miss.injEq] at h
      obtain ⟨hs, hn⟩ := h
      refine ⟨0, by omega, ?_, ?_, by omega⟩
      · rw [Nat.add_zero, Nat.mod_eq_of_lt hidx]; omega
      · rw [← hs]; rw [empty_slot_iff] at hse; exact hse
    · rw [if_neg (by simp [hse])] at h
      by_cases hh : hitAt index = true
      · rw [if_pos hh] at h; simp at h
      · rw [if_neg (by simp [hh])] at h
        rw [next_entry_eq c.cfg k hmask] at h
        obtain ⟨d, hd1, hd2, hd3, hd5⟩ :=
          ih ((index + 1) % 2 ^ k) (scans + 1) s n (Nat.mod_lt _ (by positivity)) h
        refine ⟨d + 1, by omega, by rw [← shift_mod]; exact hd2, hd3, ?_⟩
        intro t ht
        match t with
        | 0 =>
          rw [Nat.add_zero, Nat.mod_eq_of_lt hidx]
          exact ⟨by rw [← empty_slot_false_iff]; simpa using hse, by simpa using hh⟩
        | t' + 1 =>
          have := hd5 t' (by omega)
          rw [shift_mod] at this
          exact this


theorem decayCount_cons (s : Nat) (e : Exam) (l : List Exam) :
    decayCount s (e :: l) =
      decayCount s l + (if e.slot = s ∧ e.decayed = true then 1 else 0) := by
  rw [decayCount, decayCount, List.countP_cons]
  congr 1
  by_cases h1 : e.slot = s <;> by_cases h2 : e.decayed = true <;> simp [h1, h2]

theorem decayCount_nil (s : Nat) : decayCount s [] = 0 := rfl

theorem decayCount_cons_decayed (s i st' : Nat) (l : List Exam) :
    decayCount s (⟨i, st', true⟩ :: l) = decayCount s l + (if i = s then 1 else 0) := by
  rw [decayCount_cons]
  simp

theorem decayCount_cons_undecayed (s i st' : Nat) (l : List Exam) :
    decayCount s (⟨i, st', false⟩ :: l) = decayCount s l := by
  rw [decayCount_cons]
  simp

theorem getLast?_cons_ne {α : Type} (a : α) (l : List α) (h : l ≠ []) :
    (a :: l).getLast? = l.getLast? := by
  match l with
  | [] => exact absurd rfl h
  | b :: t => exact List.getLast?_cons_cons


theorem find_victim_loop_spec (cfg : Config) (k : Nat)
    (hmask : cfg.entries_mask = 2 ^ k - 1) :
    ∀ fuel states search index scans vi vs log out,
      find_victim_loop cfg states search index scans vi vs log fuel = some out →
      (∀ s, states s ≤ 7) → index < 2 ^ k → vi < 2 ^ k → 2 ≤ vs → vs ≤ 8 →
      (vs = 2 → search = 0) → (vs ≤ 7 → 2 ≤ states vi) →
      VSpec k states search vi vs log out := by
  intro fuel
  induction fuel with
  | zero =>
    intro states search index scans vi vs log out h
    simp [find_victim_loop] at h
  | succ f ih =>
    intro states search index scans vi vs log out h hst hidx hvi hvs2 hvs8 hvs2s hviocc
    rw [find_victim_loop] at h
    by_cases hs0 : search = 0
    · rw [if_pos hs0] at h
      have hout : out = ⟨states, index, scans, vi, vs, log⟩ := by
        cases h; rfl
      subst hout
      refine ⟨[], by simp, by simp, fun h1 => absurd h1 (by omega), by simp,
        by simp [decayCount], by simp, by simp, by simp, le_refl _, hvs2,
        fun _ => rfl, fun h1 => absurd h1 (lt_irrefl _), hviocc, hvi, hidx⟩
    · rw [if_neg hs0] at h
      have hnext : next_entry cfg index = (index + 1) % 2 ^ k := next_entry_eq cfg k hmask index
      have hnextlt : (index + 1) % 2 ^ k < 2 ^ k := Nat.mod_lt _ (by positivity)
      by_cases hemp : empty_slot (states index) = true
      · rw [if_pos hemp, hnext] at h
        obtain ⟨newLog, h1, h2, h3, h4, h5, h6, h7, h8, h9, h10, h11, h12, h13, h14, h15⟩ :=
          ih states search _ (scans + 1) vi vs log out h hst hnextlt hvi hvs2 hvs8 hvs2s hviocc
        exact ⟨newLog, h1, h2, h3, h4, h5, h6, h7, h8, h9, h10, h11, h12, h13, h14, h15⟩
      · rw [if_neg (by simp [hemp])] at h
        rw [empty_slot_iff] at hemp
        have hocc : 2 ≤ states index := by omega
        by_cases hlt : states index < vs
        · rw [if_pos hlt] at h
          by_cases hmin : states index = 2
          · rw [if_pos hmin, hnext] at h
            -- MIN_AGE adoption: budget zeroed, victim := index, no decay
            obtain ⟨newLog1, h1, h2, h3, h4, h5, h6, h7, h8, h9, h10, h11, h12, h13, h14, h15⟩ :=
              ih states 0 _ (scans + 1) index (states index)
                (log ++ [⟨index, states index, false⟩]) out h hst hnextlt hidx
                (by omega) (by omega) (fun _ => rfl) (fun _ => hocc)
            have hnil : newLog1 = [] := by
              cases newLog1 with
              | nil => rfl
              | cons a t => simp at h2
            subst hnil
            rw [List.append_nil] at h1
            have hvsout : out.victim_state = states index := by omega
            have hviout : out.victim_index = index := h11 hvsout
            refine ⟨[⟨index, states index, false⟩], by rw [h1],
              by simp; omega, fun _ => by simp, ?_, ?_, ?_, ?_, ?_, by omega, by omega,
              fun hvseq => absurd hvseq (by omega), ?_, h13, h14, h15⟩
            · intro e he
              simp at he
              subst he
              exact ⟨hocc, hst index, hidx⟩
            · intro s
              have hthis := h5 s
              rw [decayCount_cons_undecayed]
              rw [decayCount_nil] at hthis ⊢
              exact hthis
            · exact h6
            · intro e he hdf
              simp at he
              subst he
              exact ⟨hmin, hviout, rfl⟩
            · intro e he
              simp at he
              subst he
              exact le_of_eq hvsout
            · intro hvslt
              exact ⟨⟨index, states index, false⟩, by simp, hviout.symm, hvsout.symm⟩
          · rw [if_neg hmin, hnext] at h
            -- adoption with decay: victim := index, slot decremented, budget spent
            have hge3 : 3 ≤ states index := by omega
            have hst1 : ∀ s, upd states index (states index - 1) s ≤ 7 := by
              intro s
              by_cases hsi : s = index
              · subst hsi; rw [upd_self]; have := hst s; omega
              · rw [upd_ne _ _ _ hsi]; exact hst s
            obtain ⟨newLog1, h1, h2, h3, h4, h5, h6, h7, h8, h9, h10, h11, h12, h13, h14, h15⟩ :=
              ih _ (search - 1) _ (scans + 1) index (states index)
                (log ++ [⟨index, states index, true⟩]) out h hst1 hnextlt hidx
                (by omega) (by have := hst index; omega) (fun h2 => absurd h2 hmin)
                (fun _ => by rw [upd_self]; omega)
            refine ⟨⟨index, states index, true⟩ :: newLog1,
              by rw [h1, List.append_assoc]; rfl, by simp; omega,
              fun _ => by simp, ?_, ?_, ?_, ?_, ?_, by omega, h10,
              fun hvseq => absurd hvseq (by omega), ?_, h13, h14, h15⟩
            · intro e he
              rcases List.mem_cons.mp he with he | he
              · subst he; exact ⟨hocc, hst index, hidx⟩
              · exact h4 e he
            · intro s
              have hthis := h5 s
              rw [decayCount_cons_decayed]
              by_cases hsi : s = index
              · subst hsi
                rw [upd_self] at hthis
                rw [if_pos rfl]
                omega
              · rw [upd_ne _ _ _ hsi] at hthis
                rw [if_neg (Ne.symm hsi)]
                omega
            · intro s
              have hthis := h6 s
              by_cases hsi : s = index
              · subst hsi
                rw [upd_self] at hthis
                omega
              · rw [upd_ne _ _ _ hsi] at hthis
                exact hthis
            · intro e he hdf
              rcases List.mem_cons.mp he with he | he
              · subst he; simp at hdf
              · obtain ⟨q1, q2, q3⟩ := h7 e he hdf
                refine ⟨q1, q2, ?_⟩
                rw [getLast?_cons_ne _ _ (by intro hx; subst hx; simp at he)]
                exact q3
            · intro e he
              rcases List.mem_cons.mp he with he | he
              · subst he; exact h9
              · exact h8 e he
            · intro hvslt
              by_cases hvseq1 : out.victim_state = states index
              · exact ⟨⟨index, states index, true⟩, by simp, (h11 hvseq1).symm, hvseq1.symm⟩
              · obtain ⟨e, he1, he2, he3⟩ := h12 (by omega)
                exact ⟨e, List.mem_cons_of_mem _ he1, he2, he3⟩
        · rw [if_neg hlt, hnext] at h
          -- no adoption: the slot only decays
          have hvs7 : vs ≤ 7 := by
            have := hst index
            omega
          have hvs3 : 3 ≤ vs := by
            rcases Nat.lt_or_ge vs 3 with hc | hc
            · have : vs = 2 := by omega
              exact absurd (hvs2s this) hs0
            · exact hc
          have hge3 : 3 ≤ states index := by omega
          have hst1 : ∀ s, upd states index (states index - 1) s ≤ 7 := by
            intro s
            by_cases hsi : s = index
            · subst hsi; rw [upd_self]; have := hst s; omega
            · rw [upd_ne _ _ _ hsi]; exact hst s
          have hviocc1 : vs ≤ 7 → 2 ≤ upd states index (states index - 1) vi := by
            intro _
            by_cases hsi : vi = index
            · subst hsi; rw [upd_self]; omega
            · rw [upd_ne _ _ _ hsi]; exact hviocc hvs7
          obtain ⟨newLog1, h1, h2, h3, h4, h5, h6, h7, h8, h9, h10, h11, h12, h13, h14, h15⟩ :=
            ih _ (search - 1) _ (scans + 1) vi vs
              (log ++ [⟨index, states index, true⟩]) out h hst1 hnextlt hvi
              hvs2 hvs8 (fun h2 => by omega) hviocc1
          refine ⟨⟨index, states index, true⟩ :: newLog1,
            by rw [h1, List.append_assoc]; rfl, by simp; omega,
            fun _ => by simp, ?_, ?_, ?_, ?_, ?_, h9, h10, h11, ?_, h13, h14, h15⟩
          · intro e he
            rcases List.mem_cons.mp he with he | he
            · subst he; exact ⟨hocc, hst index, hidx⟩
            · exact h4 e he
          · intro s
            have hthis := h5 s
            rw [decayCount_cons_decayed]
            by_cases hsi : s = index
            · subst hsi
              rw [upd_self] at hthis
              rw [if_pos rfl]
              omega
            · rw [upd_ne _ _ _ hsi] at hthis
              rw [if_neg (Ne.symm hsi)]
              omega
          · intro s
            have hthis := h6 s
            by_cases hsi : s = index
            · subst hsi
              rw [upd_self] at hthis
              omega
            · rw [upd_ne _ _ _ hsi] at hthis
              exact hthis
          · intro e he hdf
            rcases List.mem_cons.mp he with he | he
            · subst he; simp at hdf
            · obtain ⟨q1, q2, q3⟩ := h7 e he hdf
              refine ⟨q1, q2, ?_⟩
              rw [getLast?_cons_ne _ _ (by intro hx; subst hx; simp at he)]
              exact q3
          · intro e he
            rcases List.mem_cons.mp he with he | he
            · subst he
              exact le_trans h9 (show vs ≤ states index by omega)
            · exact h8 e he
          · intro hvslt
            obtain ⟨e, he1, he2, he3⟩ := h12 hvslt
            exact ⟨e, List.mem_cons_of_mem _ he1, he2, he3⟩

theorem find_victim_loop_isSome (cfg : Config) (k : Nat)
    (hmask : cfg.entries_mask = 2 ^ k - 1) :
    ∀ fuel states search index scans vi vs log,
      index < 2 ^ k → 2 ≤ vs → (vs = 2 → search = 0) →
      (∃ s, s < 2 ^ k ∧ 2 ≤ states s) →
      (∃ d, d < 2 ^ k ∧ 2 ≤ states ((index + d) % 2 ^ k) ∧
        search * 2 ^ k + d + 1 ≤ fuel) →
      (find_victim_loop cfg states search index scans vi vs log fuel).isSome = true := by
  intro fuel
  induction fuel with
  | zero =>
    intro states search index scans vi vs log _ _ _ _ ⟨d, _, _, hb⟩
    omega
  | succ f ih =>
    intro states search index scans vi vs log hidx hvs2 hvs2s hoccs ⟨d, hd, hdo, hb⟩
    rw [find_victim_loop]
    by_cases hs0 : search = 0
    · rw [if_pos hs0]; rfl
    · rw [if_neg hs0]
      have hnext : next_entry cfg index = (index + 1) % 2 ^ k := next_entry_eq cfg k hmask index
      have hnextlt : (index + 1) % 2 ^ k < 2 ^ k := Nat.mod_lt _ (by positivity)
      by_cases hemp : empty_slot (states index) = true
      · rw [if_pos hemp, hnext]
        rw [empty_slot_iff] at hemp
        have hd0 : d ≠ 0 := by
          intro h0
          rw [h0, Nat.add_zero, Nat.mod_eq_of_lt hidx] at hdo
          omega
        refine ih states search _ (scans + 1) vi vs log hnextlt hvs2 hvs2s hoccs
          ⟨d - 1, by omega, ?_, by omega⟩
        rw [shift_mod]
        have : d - 1 + 1 = d := by omega
        rw [this]
        exact hdo
      · rw [if_neg (by simp [hemp])]
        rw [empty_slot_iff] at hemp
        by_cases hlt : states index < vs
        · rw [if_pos hlt]
          by_cases hmin : states index = 2
          · rw [if_pos hmin, hnext]
            obtain ⟨s, hs, hso⟩ := hoccs
            obtain ⟨d', hd', hd'eq⟩ := exists_step_dist k ((index + 1) % 2 ^ k) s hnextlt hs
            refine ih states 0 _ (scans + 1) index (states index) _ hnextlt (by omega)
              (fun _ => rfl) ⟨s, hs, hso⟩ ⟨d', hd', by rw [hd'eq]; exact hso, ?_⟩
            have hmul : 2 ^ k ≤ search * 2 ^ k := Nat.le_mul_of_pos_left _ (by omega)
            omega
          · rw [if_neg hmin, hnext]
            have hge3 : 3 ≤ states index := by omega
            have hoccs1 : ∃ s, s < 2 ^ k ∧ 2 ≤ upd states index (states index - 1) s := by
              obtain ⟨s, hs, hso⟩ := hoccs
              refine ⟨s, hs, ?_⟩
              by_cases hsi : s = index
              · subst hsi; rw [upd_self]; omega
              · rw [upd_ne _ _ _ hsi]; exact hso
            obtain ⟨s, hs, hso⟩ := hoccs1
            obtain ⟨d', hd', hd'eq⟩ := exists_step_dist k ((index + 1) % 2 ^ k) s hnextlt hs
            refine ih _ (search - 1) _ (scans + 1) index (states index) _ hnextlt
              (by omega) (fun h2 => absurd h2 hmin) ⟨s, hs, hso⟩
              ⟨d', hd', by rw [hd'eq]; exact hso, ?_⟩
            have hsearch1 : 1 ≤ search := by omega
            have : (search - 1) * 2 ^ k + 2 ^ k = search * 2 ^ k := by
              have : search - 1 + 1 = search := by omega
              calc (search - 1) * 2 ^ k + 2 ^ k = (search - 1 + 1) * 2 ^ k := by ring
                _ = search * 2 ^ k := by rw [this]
            omega
        · rw [if_neg hlt, hnext]
          have hvs3 : 3 ≤ vs := by
            rcases Nat.lt_or_ge vs 3 with hc | hc
            · have : vs = 2 := by omega
              exact absurd (hvs2s this) hs0
            · exact hc
          have hge3 : 3 ≤ states index := by omega
          have hoccs1 : ∃ s, s < 2 ^ k ∧ 2 ≤ upd states index (states index - 1) s := by
            obtain ⟨s, hs, hso⟩ := hoccs
            refine ⟨s, hs, ?_⟩
            by_cases hsi : s = index
            · subst hsi; rw [upd_self]; omega
            · rw [upd_ne _ _ _ hsi]; exact hso
          obtain ⟨s, hs, hso⟩ := hoccs1
          obtain ⟨d', hd', hd'eq⟩ := exists_step_dist k ((index + 1) % 2 ^ k) s hnextlt hs
          refine ih _ (search - 1) _ (scans + 1) vi vs _ hnextlt hvs2
            (fun h2 => by omega) ⟨s, hs, hso⟩
            ⟨d', hd', by rw [hd'eq]; exact hso, ?_⟩
          have hsearch1 : 1 ≤ search := by omega
          have : (search - 1) * 2 ^ k + 2 ^ k = search * 2 ^ k := by
            have : search - 1 + 1 = search := by omega
            calc (search - 1) * 2 ^ k + 2 ^ k = (search - 1 + 1) * 2 ^ k := by ring
              _ = search * 2 ^ k := by rw [this]
          omega

/-- A complete `find_victim` run from a state with an occupied slot:
termination plus the full loop characterisation. -/
theorem find_victim_run (c : Cache) (k : Nat)
    (hmask : c.cfg.entries_mask = 2 ^ k - 1) (hN : c.cfg.max_entries = 2 ^ k)
    (hst : ∀ s, c.states s ≤ 7) (hocc : ∃ s, s < 2 ^ k ∧ 2 ≤ c.states s)
    (hev : c.evict_index < 2 ^ k) :
    ∃ o, find_victim_loop c.cfg c.states 16 c.evict_index 0 c.evict_index 8 []
        (16 * c.cfg.max_entries + c.cfg.max_entries + 1) = some o ∧
      find_victim c = some (o.victim_index, o.log,
        { c with states := o.states, evict_index := o.evict_index,
                 stats := { c.stats with
                     evictions := bump_counter c.stats.evictions o.scans } }) ∧
      VSpec k c.states 16 c.evict_index 8 [] o := by
  have hfuel : (find_victim_loop c.cfg c.states 16 c.evict_index 0 c.evict_index 8 []
      (16 * c.cfg.max_entries + c.cfg.max_entries + 1)).isSome = true := by
    obtain ⟨s, hs, hso⟩ := hocc
    obtain ⟨d, hd, hdeq⟩ := exists_step_dist k c.evict_index s hev hs
    refine find_victim_loop_isSome c.cfg k hmask _ c.states 16 c.evict_index 0
      c.evict_index 8 [] hev (by omega) (by omega) ⟨s, hs, hso⟩
      ⟨d, hd, by rw [hdeq]; exact hso, by rw [hN]; omega⟩
  obtain ⟨o, ho⟩ := Option.isSome_iff_exists.mp hfuel
  have hspec := find_victim_loop_spec c.cfg k hmask _ c.states 16 c.evict_index 0
    c.evict_index 8 [] o ho hst hev hev (by omega) (by omega) (by omega)
    (fun h7 => absurd h7 (by omega))
  refine ⟨o, ho, ?_, hspec⟩
  rw [find_victim, ho]

/-- The facts about `find_victim` needed by the invariant-preservation
proofs: the victim is an occupied slot, slot states only decay, occupancy is
preserved, and only `evict_index` and the evictions counter change besides
the state array. -/
theorem find_victim_facts (c : Cache) (k : Nat)
    (hmask : c.cfg.entries_mask = 2 ^ k - 1) (hN : c.cfg.max_entries = 2 ^ k)
    (hst : ∀ s, c.states s ≤ 7) (hocc : ∃ s, s < 2 ^ k ∧ 2 ≤ c.states s)
    (hev : c.evict_index < 2 ^ k) :
    ∃ v log c', find_victim c = some (v, log, c') ∧
      c'.cfg = c.cfg ∧ c'.entries = c.entries ∧ c'.items = c.items ∧
      c'.item_count = c.item_count ∧ c'.work_key = c.work_key ∧
      c'.destroyed = c.destroyed ∧ c'.value_destroyer = c.value_destroyer ∧
      c'.stats.evictions.count = c.stats.evictions.count + 1 ∧
      c'.stats.lookups = c.stats.lookups ∧ c'.stats.hits = c.stats.hits ∧
      c'.stats.misses = c.stats.misses ∧ c'.stats.adds = c.stats.adds ∧
      c'.stats.updates = c.stats.updates ∧
      v < 2 ^ k ∧ 2 ≤ c'.states v ∧
      (∀ s, c'.states s ≤ c.states s) ∧
      (∀ s, 2 ≤ c'.states s ↔ 2 ≤ c.states s) ∧
      (∀ s, c.states s ≠ 1 → c'.states s ≠ 1) ∧
      c'.evict_index < 2 ^ k := by
  obtain ⟨o, ho, hfv, hspec⟩ := find_victim_run c k hmask hN hst hocc hev
  obtain ⟨newLog, h1, h2, h3, h4, h5, h6, h7, h8, h9, h10, h11, h12, h13, h14, h15⟩ := hspec
  have hvs7 : o.victim_state ≤ 7 := by
    obtain ⟨e, he⟩ := List.exists_mem_of_ne_nil _ (h3 (by omega))
    have := h4 e he
    have := h8 e he
    omega
  refine ⟨o.victim_index, o.log, _, hfv, rfl, rfl, rfl, rfl, rfl, rfl, rfl,
    rfl, rfl, rfl, rfl, rfl, rfl, h14, h13 hvs7, ?_, h6, ?_, h15⟩
  · intro s
    have := h5 s
    show o.states s ≤ c.states s
    omega
  · intro s hne1
    have hd := h5 s
    have hiff := h6 s
    show o.states s ≠ 1
    rcases Nat.lt_or_ge (c.states s) 2 with hc | hc
    · omega
    · have := hiff.mpr hc
      omega

/-- `pow2_loop` keeps powers of two. -/
theorem pow2_loop_pow (f : Nat) : ∀ acc t, (∃ j, acc = 2 ^ j) →
    ∃ j, pow2_loop f acc t = 2 ^ j := by
  induction f with
  | zero => intro acc t h; exact h
  | succ g ih =>
    intro acc t h
    rw [pow2_loop]
    split
    · refine ih (acc * 2) t ?_
      obtain ⟨j, hj⟩ := h
      exact ⟨j + 1, by rw [hj]; ring⟩
    · exact h

/-- `pow2_loop` reaches its target when given enough fuel. -/
theorem pow2_loop_ge (f : Nat) : ∀ acc t, t ≤ acc * 2 ^ f → t ≤ pow2_loop f acc t := by
  induction f with
  | zero => intro acc t h; simpa [pow2_loop] using by simpa using h
  | succ g ih =>
    intro acc t h
    rw [pow2_loop]
    split
    · refine ih (acc * 2) t ?_
      calc t ≤ acc * 2 ^ (g + 1) := h
        _ = acc * 2 * 2 ^ g := by ring
    · omega


/-- `setup` with the default load factor 2/5 produces a well-formed
geometry for every requested capacity. -/
theorem setup_default_wf (mc ks vs : Nat)
    (filler : Option (List Nat → Option (List Nat))) (use_crc : Bool) :
    (setup mc ks vs 2 5 filler use_crc).wf := by
  have hcap : 16 ≤ max mc 16 := le_max_right mc 16
  have hme : 40 ≤ (max mc 16 * 5 + 2 - 1) / 2 := by
    have : 16 * 5 ≤ max mc 16 * 5 := by omega
    omega
  have hge : (max mc 16 * 5 + 2 - 1) / 2 ≤
      pow2_loop ((max mc 16 * 5 + 2 - 1) / 2) 1 ((max mc 16 * 5 + 2 - 1) / 2) := by
    refine pow2_loop_ge _ _ _ ?_
    have := Nat.lt_two_pow ((max mc 16 * 5 + 2 - 1) / 2)
    omega
  refine ⟨pow2_loop_pow _ _ _ ⟨0, rfl⟩, rfl, ?_, ?_⟩
  · show 1 ≤ pow2_loop _ 1 _ * 2 / 5
    have h40 : 40 ≤ pow2_loop ((max mc 16 * 5 + 2 - 1) / 2) 1 ((max mc 16 * 5 + 2 - 1) / 2) := by
      omega
    have : 16 ≤ pow2_loop ((max mc 16 * 5 + 2 - 1) / 2) 1 ((max mc 16 * 5 + 2 - 1) / 2) * 2 / 5 := by
      have h80 : 80 ≤ pow2_loop ((max mc 16 * 5 + 2 - 1) / 2) 1 ((max mc 16 * 5 + 2 - 1) / 2) * 2 := by
        omega
      omega
    omega
  · show pow2_loop _ 1 _ * 2 / 5 < pow2_loop _ 1 _
    have hpos : 1 ≤ pow2_loop ((max mc 16 * 5 + 2 - 1) / 2) 1 ((max mc 16 * 5 + 2 - 1) / 2) := by
      omega
    rw [Nat.div_lt_iff_lt_mul (by omega)]
    omega


theorem occCount_const_zero (n : Nat) : occCount (fun _ => 0) n = 0 := by
  induction n with
  | zero => rfl
  | succ m ih => rw [occCount_succ, ih]; simp

theorem exists_occ_slot (f : Nat → Nat) (n : Nat) (h : 1 ≤ occCount f n) :
    ∃ s, s < n ∧ 2 ≤ f s := by
  by_contra hc
  push_neg at hc
  have : occCount f n = 0 := by
    rw [occCount, List.countP_eq_zero]
    intro a ha
    simp only [List.mem_range] at ha
    simpa using hc a ha
  omega

theorem touch_entry_cfg (c : Cache) (i : Nat) : (touch_entry c i).cfg = c.cfg := by
  rw [touch_entry]; split <;> rfl

theorem touch_entry_entries (c : Cache) (i : Nat) :
    (touch_entry c i).entries = c.entries := by
  rw [touch_entry]; split <;> rfl

theorem touch_entry_items (c : Cache) (i : Nat) : (touch_entry c i).items = c.items := by
  rw [touch_entry]; split <;> rfl

theorem touch_entry_item_count (c : Cache) (i : Nat) :
    (touch_entry c i).item_count = c.item_count := by
  rw [touch_entry]; split <;> rfl

theorem touch_entry_evict (c : Cache) (i : Nat) :
    (touch_entry c i).evict_index = c.evict_index := by
  rw [touch_entry]; split <;> rfl

theorem touch_entry_destroyed (c : Cache) (i : Nat) :
    (touch_entry c i).destroyed = c.destroyed := by
  rw [touch_entry]; split <;> rfl

theorem touch_entry_vd (c : Cache) (i : Nat) :
    (touch_entry c i).value_destroyer = c.value_destroyer := by
  rw [touch_entry]; split <;> rfl

theorem touch_entry_stats (c : Cache) (i : Nat) : (touch_entry c i).stats = c.stats := by
  rw [touch_entry]; split <;> rfl

theorem touch_entry_work_key (c : Cache) (i : Nat) :
    (touch_entry c i).work_key = c.work_key := by
  rw [touch_entry]; split <;> rfl

/-- The states after a touch: the touched slot is incremented unless already
`MAX_AGE`, everything else is unchanged. -/
theorem touch_entry_states (c : Cache) (i s : Nat) :
    (touch_entry c i).states s =
      if s = i ∧ c.states i < 7 then c.states i + 1 else c.states s := by
  rw [touch_entry]
  by_cases h7 : c.states i < 7
  · rw [if_pos h7]
    by_cases hsi : s = i
    · subst hsi
      rw [if_pos ⟨rfl, h7⟩]
      exact upd_self _ _ _
    · rw [if_neg (fun hx => hsi hx.1)]
      exact upd_ne _ _ _ hsi
  · rw [if_neg h7, if_neg (fun hx => h7 hx.2)]

theorem lookup_hit_cache_states (c : Cache) (mem : List Nat) (i n s : Nat) :
    (lookup_hit_cache c mem i n).states s =
      if s = i ∧ c.states i < 7 then c.states i + 1 else c.states s := by
  rw [lookup_hit_cache, touch_entry_states]
  rfl

theorem lookup_hit_cache_cfg (c : Cache) (mem : List Nat) (i n : Nat) :
    (lookup_hit_cache c mem i n).cfg = c.cfg := by
  rw [lookup_hit_cache, touch_entry_cfg]
  rfl

theorem lookup_hit_cache_entries (c : Cache) (mem : List Nat) (i n : Nat) :
    (lookup_hit_cache c mem i n).entries = c.entries := by
  rw [lookup_hit_cache, touch_entry_entries]
  rfl

theorem lookup_hit_cache_items (c : Cache) (mem : List Nat) (i n : Nat) :
    (lookup_hit_cache c mem i n).items = c.items := by
  rw [lookup_hit_cache, touch_entry_items]
  rfl

theorem lookup_hit_cache_item_count (c : Cache) (mem : List Nat) (i n : Nat) :
    (lookup_hit_cache c mem i n).item_count = c.item_count := by
  rw [lookup_hit_cache, touch_entry_item_count]
  rfl

theorem lookup_hit_cache_evict (c : Cache) (mem : List Nat) (i n : Nat) :
    (lookup_hit_cache c mem i n).evict_index = c.evict_index := by
  rw [lookup_hit_cache, touch_entry_evict]
  rfl

theorem lookup_hit_cache_destroyed (c : Cache) (mem : List Nat) (i n : Nat) :
    (lookup_hit_cache c mem i n).destroyed = c.destroyed := by
  rw [lookup_hit_cache, touch_entry_destroyed]
  rfl

theorem lookup_hit_cache_vd (c : Cache) (mem : List Nat) (i n : Nat) :
    (lookup_hit_cache c mem i n).value_destroyer = c.value_destroyer := by
  rw [lookup_hit_cache, touch_entry_vd]
  rfl

theorem lookup_hit_cache_evictions (c : Cache) (mem : List Nat) (i n : Nat) :
    (lookup_hit_cache c mem i n).stats.evictions = c.stats.evictions := by
  rw [lookup_hit_cache, touch_entry_stats]
  rfl

/-- `lookup_entry` from an invariant state: it terminates, and it changes
nothing except statistics, the scratch key and a possible touch of the hit
slot (which stays occupied). -/
theorem lookup_entry_total (c : Cache) (mem : List Nat) (hinv : Inv c) :
    ∃ r c', lookup_entry c mem = some (r, c') ∧ Inv c' ∧
      c'.cfg = c.cfg ∧ c'.entries = c.entries ∧ c'.items = c.items ∧
      c'.item_count = c.item_count ∧ c'.evict_index = c.evict_index ∧
      c'.destroyed = c.destroyed ∧ c'.value_destroyer = c.value_destroyer ∧
      (∀ s, 2 ≤ c'.states s ↔ 2 ≤ c.states s) ∧
      c'.stats.evictions = c.stats.evictions := by
  obtain ⟨k, hpow⟩ := hinv.wf.1
  have hmask : c.cfg.entries_mask = 2 ^ k - 1 := by rw [hinv.wf.2.1, hpow]
  have hcnt : occCount c.states c.cfg.max_entries < c.cfg.max_entries := by
    have h1 := hinv.count_eq
    have h2 := hinv.count_le
    have h3 := hinv.wf.2.2.2
    omega
  obtain ⟨s0, hs0, hs0e⟩ := exists_empty_slot c.states c.cfg.max_entries hcnt
  rw [hpow] at hs0
  have hidx : (key_hash c.cfg c.work_key mem).2 &&& c.cfg.entries_mask < 2 ^ k :=
    land_mask_lt c.cfg k hmask _
  obtain ⟨d, hd, hdeq⟩ := exists_step_dist k _ s0 hidx hs0
  have hterm := probe_loop_isSome (lookup_c1 c mem)
    (key_match (lookup_c1 c mem) (key_hash c.cfg c.work_key mem).2 mem) k hmask
    c.cfg.max_entries ((key_hash c.cfg c.work_key mem).2 &&& c.cfg.entries_mask) 0 hidx
    ⟨d, by rw [hpow]; exact hd, by rw [hdeq]; exact hs0e⟩
  obtain ⟨res, hres⟩ := Option.isSome_iff_exists.mp hterm
  cases res with
  | hit s n =>
    obtain ⟨d', hn, hseq, hhit, hsocc, hpath⟩ := probe_loop_hit_spec (lookup_c1 c mem)
      _ k hmask c.cfg.max_entries _ 0 s n hidx hres
    have hsocc' : 2 ≤ c.states s := hsocc
    rw [lookup_entry, hres]
    refine ⟨some s, _, rfl, ?_, lookup_hit_cache_cfg c mem s n,
      lookup_hit_cache_entries c mem s n, lookup_hit_cache_items c mem s n,
      lookup_hit_cache_item_count c mem s n, lookup_hit_cache_evict c mem s n,
      lookup_hit_cache_destroyed c mem s n, lookup_hit_cache_vd c mem s n, ?_,
      lookup_hit_cache_evictions c mem s n⟩
    · refine ⟨?_, ?_, ?_, ?_, ?_, ?_⟩
      · rw [lookup_hit_cache_cfg]; exact hinv.wf
      · rw [lookup_hit_cache_cfg, lookup_hit_cache_item_count]
        refine Eq.trans (occCount_congr _ c.states c.cfg.max_entries (fun t ht => ?_))
          hinv.count_eq
        rw [lookup_hit_cache_states]
        by_cases hts : t = s ∧ c.states s < 7
        · rw [if_pos hts]
          obtain ⟨hts1, _⟩ := hts
          subst hts1
          constructor <;> intro <;> omega
        · rw [if_neg hts]
      · rw [lookup_hit_cache_item_count, lookup_hit_cache_cfg]; exact hinv.count_le
      · intro t
        rw [lookup_hit_cache_states]
        have h1 := hinv.state_le t
        have h2 := hinv.state_le s
        split <;> omega
      · intro t
        rw [lookup_hit_cache_states]
        have h1 := hinv.state_ne1 t
        split <;> omega
      · rw [lookup_hit_cache_evict, lookup_hit_cache_cfg]; exact hinv.evict_lt
    · intro t
      rw [lookup_hit_cache_states]
      split <;> rename_i hsplit
      · obtain ⟨h1, _⟩ := hsplit
        subst h1
        constructor <;> intro <;> omega
      · exact Iff.rfl
  | miss s n =>
    rw [lookup_entry, hres]
    exact ⟨none, _, rfl,
      ⟨hinv.wf, hinv.count_eq, hinv.count_le, hinv.state_le, hinv.state_ne1, hinv.evict_lt⟩,
      rfl, rfl, rfl, rfl, rfl, rfl, rfl, fun _ => Iff.rfl, rfl⟩

/-- A freshly created cache satisfies the invariant. -/
theorem inv_create (mc ks vs : Nat)
    (filler : Option (List Nat → Option (List Nat))) (use_crc : Bool) :
    Inv (ihtCacheCreate mc ks vs filler use_crc) := by
  have hwf := setup_default_wf mc ks vs filler use_crc
  have h1 := hwf.2.2.1
  have h2 := hwf.2.2.2
  refine ⟨hwf, occCount_const_zero _, ?_, ?_, ?_, ?_⟩
  · show (0 : Nat) ≤ (setup mc ks vs 2 5 filler use_crc).max_items
    omega
  · intro s
    show (0 : Nat) ≤ 7
    omega
  · intro s
    show (0 : Nat) ≠ 1
    omega
  · show (0 : Nat) < (setup mc ks vs 2 5 filler use_crc).max_entries
    omega

theorem alloc_update_none_states (c : Cache) (mem : List Nat) (n : Nat) :
    (alloc_update_cache c mem none n).states = c.states := rfl

theorem alloc_update_none_item_count (c : Cache) (mem : List Nat) (n : Nat) :
    (alloc_update_cache c mem none n).item_count = c.item_count := rfl

theorem alloc_update_some_states (c : Cache) (mem : List Nat) (vidx vstate n : Nat) :
    (alloc_update_cache c mem (some (vidx, vstate)) n).states = upd c.states vidx vstate := rfl

theorem alloc_update_some_item_count (c : Cache) (mem : List Nat) (vidx vstate n : Nat) :
    (alloc_update_cache c mem (some (vidx, vstate)) n).item_count = c.item_count + 1 := rfl

theorem alloc_update_cfg (c : Cache) (mem : List Nat) (victim : Option (Nat × Nat)) (n : Nat) :
    (alloc_update_cache c mem victim n).cfg = c.cfg := by
  rcases victim with _ | ⟨vidx, vstate⟩ <;> rfl

theorem alloc_update_entries (c : Cache) (mem : List Nat) (victim : Option (Nat × Nat))
    (n : Nat) : (alloc_update_cache c mem victim n).entries = c.entries := by
  rcases victim with _ | ⟨vidx, vstate⟩ <;> rfl

theorem alloc_update_items (c : Cache) (mem : List Nat) (victim : Option (Nat × Nat))
    (n : Nat) : (alloc_update_cache c mem victim n).items = c.items := by
  rcases victim with _ | ⟨vidx, vstate⟩ <;> rfl

theorem alloc_update_evict (c : Cache) (mem : List Nat) (victim : Option (Nat × Nat))
    (n : Nat) : (alloc_update_cache c mem victim n).evict_index = c.evict_index := by
  rcases victim with _ | ⟨vidx, vstate⟩ <;> rfl

theorem alloc_update_destroyed (c : Cache) (mem : List Nat) (victim : Option (Nat × Nat))
    (n : Nat) : (alloc_update_cache c mem victim n).destroyed = c.destroyed := by
  rcases victim with _ | ⟨vidx, vstate⟩ <;> rfl

theorem alloc_update_vd (c : Cache) (mem : List Nat) (victim : Option (Nat × Nat))
    (n : Nat) : (alloc_update_cache c mem victim n).value_destroyer = c.value_destroyer := by
  rcases victim with _ | ⟨vidx, vstate⟩ <;> rfl

/-- `alloc_finish` from a state with room in the pool and an empty slot:
termination and all the facts needed for invariant preservation. -/
theorem alloc_finish_total (c : Cache) (mem : List Nat) (victim : Option (Nat × Nat))
    (newIdx : Nat) (k : Nat)
    (hmask : c.cfg.entries_mask = 2 ^ k - 1) (hpow : c.cfg.max_entries = 2 ^ k)
    (hst : ∀ s, c.states s ≤ 7) (hne1 : ∀ s, c.states s ≠ 1)
    (hcnt : occCount c.states c.cfg.max_entries = c.item_count)
    (hroom : c.item_count < c.cfg.max_items)
    (hempty : ∃ s, s < 2 ^ k ∧ c.states s ≤ 1)
    (hvic : ∀ vidx vstate, victim = some (vidx, vstate) →
      vidx < 2 ^ k ∧ c.states vidx ≤ 1 ∧ 2 ≤ vstate ∧ vstate ≤ 7) :
    ∃ s c', alloc_finish c mem victim newIdx = some (s, c') ∧
      c'.cfg = c.cfg ∧ s < 2 ^ k ∧ 2 ≤ c'.states s ∧
      c'.items = c.items ∧ c'.destroyed = c.destroyed ∧
      c'.value_destroyer = c.value_destroyer ∧
      c'.evict_index = c.evict_index ∧
      occCount c'.states c'.cfg.max_entries = c'.item_count ∧
      c'.item_count ≤ c.cfg.max_items ∧
      (∀ t, c'.states t ≤ 7) ∧ (∀ t, c'.states t ≠ 1) := by
  obtain ⟨s0, hs0, hs0e⟩ := hempty
  have hidx : (key_hash c.cfg c.work_key mem).2 &&& c.cfg.entries_mask < 2 ^ k :=
    land_mask_lt c.cfg k hmask _
  obtain ⟨d, hd, hdeq⟩ := exists_step_dist k _ s0 hidx hs0
  have hterm := probe_loop_isSome (alloc_c1 c mem)
    (key_match (alloc_c1 c mem) (key_hash c.cfg c.work_key mem).2 mem) k hmask
    c.cfg.max_entries ((key_hash c.cfg c.work_key mem).2 &&& c.cfg.entries_mask) 0 hidx
    ⟨d, by rw [hpow]; exact hd, by rw [hdeq]; exact hs0e⟩
  obtain ⟨res, hres⟩ := Option.isSome_iff_exists.mp hterm
  cases res with
  | hit s n =>
    obtain ⟨d', hn, hseq, hhit, hsocc, hpath⟩ := probe_loop_hit_spec (alloc_c1 c mem)
      _ k hmask c.cfg.max_entries _ 0 s n hidx hres
    have hsocc' : 2 ≤ c.states s := hsocc
    have hslt : s < 2 ^ k := by rw [hseq]; exact Nat.mod_lt _ (by positivity)
    rw [alloc_finish, hres]
    rcases victim with _ | ⟨vidx, vstate⟩
    · refine ⟨s, _, rfl, alloc_update_cfg c mem none n, hslt, ?_, ?_, ?_, ?_, ?_, ?_, ?_, ?_, ?_⟩
      · rw [alloc_update_none_states]; exact hsocc'
      · rw [alloc_update_items]
      · rw [alloc_update_destroyed]
      · rw [alloc_update_vd]
      · rw [alloc_update_evict]
      · rw [alloc_update_none_states, alloc_update_none_item_count, alloc_update_cfg]
        exact hcnt
      · rw [alloc_update_none_item_count]; omega
      · intro t; rw [alloc_update_none_states]; exact hst t
      · intro t; rw [alloc_update_none_states]; exact hne1 t
    · obtain ⟨hv1, hv2, hv3, hv4⟩ := hvic vidx vstate rfl
      have hsne : s ≠ vidx := by
        intro hx
        subst hx
        omega
      refine ⟨s, _, rfl, alloc_update_cfg c mem _ n, hslt, ?_, ?_, ?_, ?_, ?_, ?_, ?_, ?_, ?_⟩
      · rw [alloc_update_some_states, upd_ne _ _ _ hsne]; exact hsocc'
      · rw [alloc_update_items]
      · rw [alloc_update_destroyed]
      · rw [alloc_update_vd]
      · rw [alloc_update_evict]
      · rw [alloc_update_some_states, alloc_update_some_item_count, alloc_update_cfg]
        rw [occCount_upd_occ c.states c.cfg.max_entries vidx vstate (by omega) hv2 hv3]
        omega
      · rw [alloc_update_some_item_count]; omega
      · intro t
        rw [alloc_update_some_states]
        by_cases ht : t = vidx
        · subst ht; rw [upd_self]; omega
        · rw [upd_ne _ _ _ ht]; exact hst t
      · intro t
        rw [alloc_update_some_states]
        by_cases ht : t = vidx
        · subst ht; rw [upd_self]; omega
        · rw [upd_ne _ _ _ ht]; exact hne1 t
  | miss s n =>
    obtain ⟨d', hn, hseq, hsemp, hpath⟩ := probe_loop_miss_spec (alloc_c1 c mem)
      _ k hmask c.cfg.max_entries _ 0 s n hidx hres
    have hsemp' : c.states s ≤ 1 := hsemp
    have hslt : s < 2 ^ k := by rw [hseq]; exact Nat.mod_lt _ (by positivity)
    rw [alloc_finish, hres]
    refine ⟨s, _, rfl, rfl, hslt, ?_, rfl, rfl, rfl, rfl, ?_, ?_, ?_, ?_⟩
    · show 2 ≤ upd c.states s 2 s
      rw [upd_self]
    · show occCount (upd c.states s 2) c.cfg.max_entries = c.item_count + 1
      rw [occCount_upd_occ c.states c.cfg.max_entries s 2 (by omega) hsemp' (by omega)]
      omega
    · show c.item_count + 1 ≤ c.cfg.max_items
      omega
    · intro t
      show upd c.states s 2 t ≤ 7
      by_cases ht : t = s
      · subst ht; rw [upd_self]; omega
      · rw [upd_ne _ _ _ ht]; exact hst t
    · intro t
      show upd c.states s 2 t ≠ 1
      by_cases ht : t = s
      · subst ht; rw [upd_self]; omega
      · rw [upd_ne _ _ _ ht]; exact hne1 t

/-- `alloc_new_entry` from an invariant state: it terminates and preserves
the invariant; the returned slot is occupied and in range. -/
theorem alloc_total (c : Cache) (mem : List Nat) (hinv : Inv c) :
    ∃ s c', alloc_new_entry c mem = some (s, c') ∧ Inv c' ∧
      c'.cfg = c.cfg ∧ s < c.cfg.max_entries ∧ 2 ≤ c'.states s ∧
      c'.destroyed = c.destroyed ∧ c'.value_destroyer = c.value_destroyer := by
  obtain ⟨k, hpow⟩ := hinv.wf.1
  have hmask : c.cfg.entries_mask = 2 ^ k - 1 := by rw [hinv.wf.2.1, hpow]
  by_cases hge : c.item_count ≥ c.cfg.max_items
  · -- eviction path
    have hocc : ∃ s, s < 2 ^ k ∧ 2 ≤ c.states s := by
      have h1 := hinv.count_eq
      have h2 := hinv.wf.2.2.1
      obtain ⟨s, hs, hso⟩ := exists_occ_slot c.states c.cfg.max_entries (by omega)
      exact ⟨s, by omega, hso⟩
    obtain ⟨v, log, c1, hfv, hcfg1, hent1, hitems1, hic1, hwk1, hdes1, hvd1, hevc1,
      hl1, hh1, hm1, ha1, hu1, hvlt, hvocc, hdec, hiff, hne1p, hevlt⟩ :=
      find_victim_facts c k hmask hpow hinv.state_le hocc
        (by rw [← hpow]; exact hinv.evict_lt)
    have hcfg1mask : c1.cfg.entries_mask = 2 ^ k - 1 := by
      rw [hcfg1]; exact hmask
    have hcfg1pow : c1.cfg.max_entries = 2 ^ k := by
      rw [hcfg1]; exact hpow
    have hcnt1 : occCount c1.states c1.cfg.max_entries = c1.item_count := by
      rw [hcfg1, hic1, ← hinv.count_eq]
      exact occCount_congr _ _ _ (fun t ht => hiff t)
    obtain ⟨s, c', hfin, hc'cfg, hslt, hsocc, hitems', hdes', hvd', hev', hcnt', hle',
      hst', hne1'⟩ :=
      alloc_finish_total
        { c1 with states := upd c1.states v 0, item_count := c1.item_count - 1 }
        mem (some (v, c1.states v)) ((c1.entries v).item_index) k
        hcfg1mask hcfg1pow
        (fun t => by
          show upd c1.states v 0 t ≤ 7
          by_cases ht : t = v
          · subst ht; rw [upd_self]; omega
          · rw [upd_ne _ _ _ ht]
            exact le_trans (hdec t) (hinv.state_le t))
        (fun t => by
          show upd c1.states v 0 t ≠ 1
          by_cases ht : t = v
          · subst ht; rw [upd_self]; omega
          · rw [upd_ne _ _ _ ht]; exact hne1p t (hinv.state_ne1 t))
        (by
          show occCount (upd c1.states v 0) c1.cfg.max_entries = c1.item_count - 1
          have := occCount_upd_le c1.states c1.cfg.max_entries v 0
            (by rw [hcfg1, hpow]; exact hvlt) hvocc (by omega)
          omega)
        (by
          show c1.item_count - 1 < c1.cfg.max_items
          rw [hcfg1, hic1]
          have h1 := hinv.count_le
          have h2 := hinv.wf.2.2.1
          omega)
        ⟨v, hvlt, by show upd c1.states v 0 v ≤ 1; rw [upd_self]; omega⟩
        (fun vidx vstate hveq => by
          injection hveq with hpair
          injection hpair with ha hb
          subst ha
          subst hb
          refine ⟨hvlt, ?_, hvocc, le_trans (hdec v) (hinv.state_le v)⟩
          show upd c1.states v 0 v ≤ 1
          rw [upd_self]
          omega)
    have hc'cfg2 : c'.cfg = c.cfg := by
      rw [hc'cfg]
      exact hcfg1
    refine ⟨s, c', ?_, ?_, hc'cfg2, ?_, hsocc, ?_, ?_⟩
    · rw [alloc_new_entry, if_pos hge, hfv]
      exact hfin
    · refine ⟨?_, hcnt', ?_, hst', hne1', ?_⟩
      · rw [hc'cfg2]; exact hinv.wf
      · rw [hc'cfg2]
        have hle2 : c'.item_count ≤ c1.cfg.max_items := hle'
        rw [hcfg1] at hle2
        exact hle2
      · rw [hc'cfg2, hev', hpow]
        exact hevlt
    · rw [hpow]
      exact hslt
    · rw [hdes']
      exact hdes1
    · rw [hvd']
      exact hvd1
  · -- no eviction needed
    have hroom : c.item_count < c.cfg.max_items := by omega
    have hempty : ∃ s, s < 2 ^ k ∧ c.states s ≤ 1 := by
      have h1 := hinv.count_eq
      have h2 := hinv.wf.2.2.2
      obtain ⟨s, hs, hse⟩ := exists_empty_slot c.states c.cfg.max_entries (by omega)
      exact ⟨s, by omega, hse⟩
    obtain ⟨s, c', hfin, hc'cfg, hslt, hsocc, hitems', hdes', hvd', hev', hcnt', hle',
      hst', hne1'⟩ :=
      alloc_finish_total c mem none c.item_count k hmask hpow hinv.state_le
        hinv.state_ne1 hinv.count_eq hroom hempty
        (fun vidx vstate hveq => by cases hveq)
    refine ⟨s, c', ?_, ?_, hc'cfg, by omega, hsocc, hdes', hvd'⟩
    · rw [alloc_new_entry, if_neg hge]
      exact hfin
    · refine ⟨?_, hcnt', ?_, hst', hne1', ?_⟩
      · rw [hc'cfg]; exact hinv.wf
      · rw [hc'cfg]; exact hle'
      · rw [hev', hc'cfg]
        exact hinv.evict_lt

/-- `store_item` only writes value/key bytes into the item pool; the
invariant does not depend on the pool contents. -/
theorem inv_store_item (c : Cache) (i : Nat) (mem value : List Nat) (hinv : Inv c) :
    Inv (store_item c i mem value) :=
  ⟨hinv.wf, hinv.count_eq, hinv.count_le, hinv.state_le, hinv.state_ne1, hinv.evict_lt⟩

/-- `ihtCachePut` from an invariant state: it terminates (returning success)
and preserves the invariant. -/
theorem put_total (c : Cache) (mem value : List Nat) (hinv : Inv c) :
    ∃ c', ihtCachePut c mem value = some (true, c') ∧ Inv c' ∧ c'.cfg = c.cfg ∧
      c'.destroyed = c.destroyed := by
  obtain ⟨s, c1, halloc, hinv1, hcfg1, hslt, hsocc, hdes1, hvd1⟩ := alloc_total c mem hinv
  refine ⟨store_item c1 ((c1.entries s).item_index) mem value, ?_, ?_, hcfg1, hdes1⟩
  · rw [ihtCachePut, halloc]
  · exact inv_store_item _ _ _ _ hinv1

/-- `ihtCacheLookup` from an invariant state: it terminates and preserves
the invariant. -/
theorem lookup_total (c : Cache) (mem : List Nat) (hinv : Inv c) :
    ∃ r c', ihtCacheLookup c mem = some (r, c') ∧ Inv c' ∧ c'.cfg = c.cfg ∧
      c'.destroyed = c.destroyed := by
  obtain ⟨r, c1, hlk, hinv1, hcfg1, hent1, hitems1, hic1, hev1, hdes1, hvd1, hiff1, hevc1⟩ :=
    lookup_entry_total c mem hinv
  cases r with
  | none =>
    refine ⟨none, c1, ?_, hinv1, hcfg1, hdes1⟩
    rw [ihtCacheLookup, hlk]
  | some s =>
    refine ⟨some (storedValueAt c1 s), c1, ?_, hinv1, hcfg1, hdes1⟩
    rw [ihtCacheLookup, hlk]

/-- `calc_new_entry` from an invariant state: it terminates and preserves
the invariant. -/
theorem calc_total (c : Cache) (mem : List Nat) (hinv : Inv c) :
    ∃ r c', calc_new_entry c mem = some (r, c') ∧ Inv c' ∧ c'.cfg = c.cfg ∧
      c'.destroyed = c.destroyed := by
  rcases hf : c.cfg.filler with _ | f
  · refine ⟨none, c, ?_, hinv, rfl, rfl⟩
    simp only [calc_new_entry, hf]
  · rcases hv : f (mem.take c.cfg.key_size) with _ | v
    · refine ⟨none, c, ?_, hinv, rfl, rfl⟩
      simp only [calc_new_entry, hf, hv]
    · obtain ⟨s, c1, halloc, hinv1, hcfg1, hslt, hsocc, hdes1, hvd1⟩ := alloc_total c mem hinv
      refine ⟨some s, store_item c1 ((c1.entries s).item_index) mem v, ?_,
        inv_store_item _ _ _ _ hinv1, hcfg1, hdes1⟩
      simp only [calc_new_entry, hf, hv, halloc]

/-- `ihtCacheFetch` from an invariant state: it terminates and preserves
the invariant. -/
theorem fetch_total (c : Cache) (mem : List Nat) (hinv : Inv c) :
    ∃ r c', ihtCacheFetch c mem = some (r, c') ∧ Inv c' ∧ c'.cfg = c.cfg ∧
      c'.destroyed = c.destroyed := by
  obtain ⟨r, c1, hlk, hinv1, hcfg1, hent1, hitems1, hic1, hev1, hdes1, hvd1, hiff1, hevc1⟩ :=
    lookup_entry_total c mem hinv
  cases r with
  | some s =>
    refine ⟨some (storedValueAt c1 s), c1, ?_, hinv1, hcfg1, hdes1⟩
    rw [ihtCacheFetch, hlk]
  | none =>
    obtain ⟨r2, c2, hcalc, hinv2, hcfg2, hdes2⟩ := calc_total c1 mem hinv1
    cases r2 with
    | none =>
      refine ⟨none, c2, ?_, hinv2, by rw [hcfg2, hcfg1], by rw [hdes2, hdes1]⟩
      simp only [ihtCacheFetch, hlk, hcalc]
    | some s =>
      refine ⟨some (storedValueAt c2 s), c2, ?_, hinv2, by rw [hcfg2, hcfg1],
        by rw [hdes2, hdes1]⟩
      simp only [ihtCacheFetch, hlk, hcalc]

/-- Every public operation step preserves the invariant and the
configuration. -/
theorem step_inv (c c' : Cache) (hs : Step c c') (hinv : Inv c) :
    Inv c' ∧ c'.cfg = c.cfg := by
  cases hs with
  | put key v hk hv b h =>
    obtain ⟨c2, heq, hinv2, hcfg2, _⟩ := put_total c key v hinv
    rw [heq] at h
    injection h with h1
    injection h1 with h1a h1b
    subst h1b
    exact ⟨hinv2, hcfg2⟩
  | fetch key hk r h =>
    obtain ⟨r2, c2, heq, hinv2, hcfg2, _⟩ := fetch_total c key hinv
    rw [heq] at h
    injection h with h1
    injection h1 with h1a h1b
    subst h1b
    exact ⟨hinv2, hcfg2⟩
  | lookup key hk r h =>
    obtain ⟨r2, c2, heq, hinv2, hcfg2, _⟩ := lookup_total c key hinv
    rw [heq] at h
    injection h with h1
    injection h1 with h1a h1b
    subst h1b
    exact ⟨hinv2, hcfg2⟩

/-- The invariant and the configuration carry along any reachable run. -/
theorem reachable_inv (c0 c : Cache) (h : Reachable c0 c) (h0 : Inv c0) :
    Inv c ∧ c.cfg = c0.cfg := by
  induction h with
  | refl => exact ⟨h0, rfl⟩
  | tail hsteps hstep ih =>
    obtain ⟨hinv1, hcfg1⟩ := ih
    obtain ⟨hinv2, hcfg2⟩ := step_inv _ _ hstep hinv1
    exact ⟨hinv2, by rw [hcfg2, hcfg1]⟩

/-- C1: the specified behaviour fails on a concrete run.  With
`key_size = 24`, `value_size = 1`, `setup` places the value at offset 16
inside the 24-byte key region, so each `Put` corrupts byte 16 of the stored
key.  After `Put(k24, [0xBB]); Put(k24, [0xCC])` the lookup of `k24` fails
(instead of returning `[0xCC]`), the second put allocates a second item
(`item_count = 2` instead of 1) and bumps `adds` (2) instead of `updates`
(0). -/
theorem c1_put_put_lookup_diverges :
    (ihtCachePut c241 k24 [0xBB]).isSome = true ∧
    (ihtCachePut c241a k24 [0xCC]).isSome = true ∧
    (ihtCacheLookup c241b k24).map Prod.fst = some none ∧
    c241b.item_count = 2 ∧
    c241b.stats.adds.count = 2 ∧
    c241b.stats.updates.count = 0 := by decide

/-- C2: the put/lookup round trip fails on a concrete reachable state.  With
`key_size = 24`, `value_size = 1`, already the first `Put(k24, [0xBB])`
stores a key whose byte 16 was overwritten by the value byte, so the
immediately following `Lookup(k24)` fails instead of returning `[0xBB]`. -/
theorem c2_put_lookup_roundtrip_diverges :
    (ihtCachePut c241 k24 [0xBB]).isSome = true ∧
    (ihtCacheLookup c241a k24).map Prod.fst = some none := by decide

/-- C4: the value destroyer is never invoked on eviction.  On a concrete run
with a registered destroyer, filling the pool (25 items) and adding a 26th
key evicts a victim (`evictions.count = 1`) yet the destroyer log stays
empty; `remove_all` on the same cache does invoke it on all 25 occupied
slots. -/
theorem c4_no_destroyer_on_eviction :
    (runOps c4Init c4Ops).isSome = true ∧
    c4Final.value_destroyer = true ∧
    c4Final.stats.evictions.count = 1 ∧
    c4Final.destroyed = [] ∧
    (remove_all c4Final).destroyed.length = 25 := by decide

/-- C5: the non-fast layout is wrong.  For `key_size = 24`, `value_size = 1`
the key exceeds 16 bytes but `setup` computes the padding from `value_size`,
takes the dead branch and places the value region inside the key region
(overlap); for `key_size = 8`, `value_size = 24` the value region extends
past `item_size` (out of bounds). -/
theorem c5_setup_layout_diverges :
    (cfg241.key_offset = 0 ∧ cfg241.key_size = 24 ∧ cfg241.value_offset = 16 ∧
      cfg241.value_offset < cfg241.key_offset + cfg241.key_size) ∧
    (cfg824.value_offset = 16 ∧ cfg824.value_size = 24 ∧ cfg824.item_size = 32 ∧
      cfg824.item_size < cfg824.value_offset + cfg824.value_size) := by decide

/-- C8: the general hash path reads past the key.  For `key_size = 20` the
lane loop loads a final full 8-byte lane, so two buffers equal on all 20 key
bytes but differing at byte 20 hash differently on the lookup path
(`key_hash` with the `key_size = 20` configuration). -/
theorem c8_hash_overread_diverges :
    (k20 ++ [0, 0, 0, 0]).take 20 = (k20 ++ [1, 0, 0, 0]).take 20 ∧
    (key_hash (setup 16 20 8 2 5 none false) (List.replicate 16 0)
        (k20 ++ [0, 0, 0, 0])).2 = 0xfee74173 ∧
    (key_hash (setup 16 20 8 2 5 none false) (List.replicate 16 0)
        (k20 ++ [1, 0, 0, 0])).2 = 0xf33d4ca9 := by decide

/-- C10 counterexample: a concrete 32-operation sequence from a freshly
created fast-mode cache after which directory slots 0 and 1 are both
occupied and store bytewise-equal keys (the key `mk16 167`): an eviction
broke the probe chain of slot 1, the re-put of the key missed and inserted
a second copy. -/
theorem c10_duplicate_keys_counterexample :
    (runOps c10Init c10Ops).isSome = true ∧
    2 <= c10Final.states 0 ∧ 2 <= c10Final.states 1 ∧
    storedKeyAt c10Final 0 = storedKeyAt c10Final 1 ∧
    storedKeyAt c10Final 0 = mk16 167 ∧
    c10Final.stats.evictions.count = 2 := by decide

/-- `fast_lookup_entry` from an invariant state: the probe loop terminates. -/
theorem fast_lookup_total (c : Cache) (key : List Nat) (hinv : Inv c) :
    fast_lookup_entry c key ≠ none := by
  obtain ⟨k, hpow⟩ := hinv.wf.1
  have hmask : c.cfg.entries_mask = 2 ^ k - 1 := by rw [hinv.wf.2.1, hpow]
  rw [fast_lookup_entry]
  by_cases h1 : empty_slot (c.states (fast_home c key)) = true
  · rw [if_pos h1]; simp
  · rw [if_neg h1]
    by_cases h2 : fast_key_match c (fast_key_hash c.cfg.use_crc key) key (fast_home c key) = true
    · rw [if_pos h2]; simp
    · rw [if_neg h2]
      have hcnt : occCount c.states c.cfg.max_entries < c.cfg.max_entries := by
        have ha := hinv.count_eq
        have hb := hinv.count_le
        have hc := hinv.wf.2.2.2
        omega
      obtain ⟨s0, hs0, hs0e⟩ := exists_empty_slot c.states c.cfg.max_entries hcnt
      rw [hpow] at hs0
      have hidx : next_entry c.cfg (fast_home c key) < 2 ^ k := by
        rw [next_entry_eq c.cfg k hmask]
        exact Nat.mod_lt _ (by positivity)
      obtain ⟨d, hd, hdeq⟩ := exists_step_dist k _ s0 hidx hs0
      have hterm := probe_loop_isSome (fast_c1 c)
        (fast_key_match (fast_c1 c) (fast_key_hash c.cfg.use_crc key) key) k hmask
        c.cfg.max_entries (next_entry c.cfg (fast_home c key)) 1 hidx
        ⟨d, by rw [hpow]; exact hd, by rw [hdeq]; exact hs0e⟩
      obtain ⟨res, hres⟩ := Option.isSome_iff_exists.mp hterm
      rw [hres]
      cases res with
      | hit s n => simp
      | miss s n => simp

/-- C9: in every state reachable by public operations from a default-created
cache, the occupied-slot count stays at or below `max_items`, which is
strictly below `max_entries`, so an `EMPTY` slot exists; consequently
`lookup_entry`, `fast_lookup_entry` and `alloc_new_entry` all terminate
(return `some`) for every key. -/
theorem c9_occupancy_and_termination (mc ks vs : Nat)
    (filler : Option (List Nat → Option (List Nat))) (use_crc : Bool) (c : Cache)
    (h : Reachable (ihtCacheCreate mc ks vs filler use_crc) c) :
    occCount c.states c.cfg.max_entries ≤ c.cfg.max_items ∧
    c.cfg.max_items < c.cfg.max_entries ∧
    (∃ s, s < c.cfg.max_entries ∧ c.states s = 0) ∧
    (∀ mem, lookup_entry c mem ≠ none) ∧
    (∀ key, fast_lookup_entry c key ≠ none) ∧
    (∀ mem, alloc_new_entry c mem ≠ none) := by
  obtain ⟨hinv, hcfg⟩ := reachable_inv _ _ h (inv_create mc ks vs filler use_crc)
  refine ⟨?_, hinv.wf.2.2.2, ?_, ?_, fun key => fast_lookup_total c key hinv, ?_⟩
  · rw [hinv.count_eq]; exact hinv.count_le
  · have hcnt : occCount c.states c.cfg.max_entries < c.cfg.max_entries := by
      have ha := hinv.count_eq
      have hb := hinv.count_le
      have hc := hinv.wf.2.2.2
      omega
    obtain ⟨s, hs, hse⟩ := exists_empty_slot c.states c.cfg.max_entries hcnt
    refine ⟨s, hs, ?_⟩
    have := hinv.state_ne1 s
    omega
  · intro mem
    obtain ⟨r, c1, hlk, _⟩ := lookup_entry_total c mem hinv
    rw [hlk]
    simp
  · intro mem
    obtain ⟨s, c1, halloc, _⟩ := alloc_total c mem hinv
    rw [halloc]
    simp

/-- C9 witness: the termination and occupancy facts hold at a freshly
created cache. -/
theorem c9_occupancy_and_termination_witness :
    occCount (ihtCacheCreate 16 16 16 none false).states
        (ihtCacheCreate 16 16 16 none false).cfg.max_entries ≤
      (ihtCacheCreate 16 16 16 none false).cfg.max_items ∧
    (ihtCacheCreate 16 16 16 none false).cfg.max_items <
      (ihtCacheCreate 16 16 16 none false).cfg.max_entries ∧
    (∃ s, s < (ihtCacheCreate 16 16 16 none false).cfg.max_entries ∧
      (ihtCacheCreate 16 16 16 none false).states s = 0) ∧
    (∀ mem, lookup_entry (ihtCacheCreate 16 16 16 none false) mem ≠ none) ∧
    (∀ key, fast_lookup_entry (ihtCacheCreate 16 16 16 none false) key ≠ none) ∧
    (∀ mem, alloc_new_entry (ihtCacheCreate 16 16 16 none false) mem ≠ none) :=
  c9_occupancy_and_termination 16 16 16 none false _ Relation.ReflTransGen.refl

/-- C7: in every reachable state every occupied slot has state in
`[MIN_AGE, MAX_AGE] = [2, 7]`; `touch_entry` never decreases a state (it
adds 1 unless the state is already 7, which it leaves at 7); and a
`find_victim` run never raises any state and keeps every occupied slot
occupied (state at least `MIN_AGE`). -/
theorem c7_state_age_invariant (mc ks vs : Nat)
    (filler : Option (List Nat → Option (List Nat))) (use_crc : Bool) (c : Cache)
    (h : Reachable (ihtCacheCreate mc ks vs filler use_crc) c) :
    (∀ s, 2 ≤ c.states s → 2 ≤ c.states s ∧ c.states s ≤ 7) ∧
    (∀ s, c.states s ≤ (touch_entry c s).states s ∧
      (c.states s < 7 → (touch_entry c s).states s = c.states s + 1) ∧
      (c.states s = 7 → (touch_entry c s).states s = 7)) ∧
    (∀ v log c1, find_victim c = some (v, log, c1) →
      (∀ s, c1.states s ≤ c.states s) ∧
      (∀ s, 2 ≤ c.states s → 2 ≤ c1.states s)) := by
  obtain ⟨hinv, hcfg⟩ := reachable_inv _ _ h (inv_create mc ks vs filler use_crc)
  obtain ⟨k, hpow⟩ := hinv.wf.1
  have hmask : c.cfg.entries_mask = 2 ^ k - 1 := by rw [hinv.wf.2.1, hpow]
  refine ⟨fun s hocc => ⟨hocc, hinv.state_le s⟩, ?_, ?_⟩
  · intro s
    have hts : (touch_entry c s).states s =
        if c.states s < 7 then c.states s + 1 else c.states s := by
      rw [touch_entry_states]
      by_cases h7 : c.states s < 7
      · rw [if_pos ⟨rfl, h7⟩, if_pos h7]
      · rw [if_neg (fun hc => h7 hc.2), if_neg h7]
    refine ⟨?_, ?_, ?_⟩
    · rw [hts]; split <;> omega
    · intro h7; rw [hts, if_pos h7]
    · intro h7; rw [hts, if_neg (by omega)]; exact h7
  · intro v log c1 hfv
    rw [find_victim] at hfv
    rcases hloop : find_victim_loop c.cfg c.states 16 c.evict_index 0 c.evict_index 8 []
        (16 * c.cfg.max_entries + c.cfg.max_entries + 1) with _ | o
    · rw [hloop] at hfv
      exact absurd hfv (by simp)
    · rw [hloop] at hfv
      injection hfv with h1
      injection h1 with hv h2
      injection h2 with hlog hc1
      subst hc1
      have hevlt : c.evict_index < 2 ^ k := by rw [← hpow]; exact hinv.evict_lt
      have hspec := find_victim_loop_spec c.cfg k hmask _ c.states 16 c.evict_index 0
        c.evict_index 8 [] o hloop hinv.state_le hevlt hevlt (by omega) (by omega)
        (by omega) (fun h7 => absurd h7 (by omega))
      obtain ⟨newLog, _, _, _, _, h5, h6, _⟩ := hspec
      constructor
      · intro s
        have := h5 s
        show o.states s ≤ c.states s
        omega
      · intro s hocc
        exact (h6 s).mpr hocc

/-- C7 witness: the age facts hold at a freshly created cache. -/
theorem c7_state_age_invariant_witness :
    (∀ s, 2 ≤ (ihtCacheCreate 16 16 16 none false).states s →
      2 ≤ (ihtCacheCreate 16 16 16 none false).states s ∧
        (ihtCacheCreate 16 16 16 none false).states s ≤ 7) ∧
    (∀ s, (ihtCacheCreate 16 16 16 none false).states s ≤
        (touch_entry (ihtCacheCreate 16 16 16 none false) s).states s ∧
      ((ihtCacheCreate 16 16 16 none false).states s < 7 →
        (touch_entry (ihtCacheCreate 16 16 16 none false) s).states s =
          (ihtCacheCreate 16 16 16 none false).states s + 1) ∧
      ((ihtCacheCreate 16 16 16 none false).states s = 7 →
        (touch_entry (ihtCacheCreate 16 16 16 none false) s).states s = 7)) ∧
    (∀ v log c1, find_victim (ihtCacheCreate 16 16 16 none false) = some (v, log, c1) →
      (∀ s, c1.states s ≤ (ihtCacheCreate 16 16 16 none false).states s) ∧
      (∀ s, 2 ≤ (ihtCacheCreate 16 16 16 none false).states s → 2 ≤ c1.states s)) :=
  c7_state_age_invariant 16 16 16 none false _ Relation.ReflTransGen.refl

/-- C6: from any state with an occupied slot (with well-formed geometry,
states bounded by `MAX_AGE` and the cursor in range), `find_victim`
terminates; it examines at most 16 occupied slots (the ghost log records
exactly the occupied-slot examinations; empty slots are skipped without
consuming budget), each examined slot loses one state step except an
adopted `MIN_AGE` victim, which is the last examination (the early stop),
and the returned victim is an occupied slot of minimal examined state. -/
theorem c6_find_victim_characterised (c : Cache) (k : Nat)
    (hmask : c.cfg.entries_mask = 2 ^ k - 1) (hN : c.cfg.max_entries = 2 ^ k)
    (hst : ∀ s, c.states s ≤ 7)
    (hocc : ∃ s, s < 2 ^ k ∧ 2 ≤ c.states s)
    (hev : c.evict_index < 2 ^ k) :
    ∃ v log c1, find_victim c = some (v, log, c1) ∧
      log.length ≤ 16 ∧
      (∀ e ∈ log, 2 ≤ e.state ∧ e.state ≤ 7 ∧ e.slot < 2 ^ k) ∧
      (∀ s, c1.states s + decayCount s log = c.states s) ∧
      (∀ e ∈ log, e.decayed = false →
        e.state = 2 ∧ v = e.slot ∧ log.getLast? = some e) ∧
      (∃ e, e ∈ log ∧ e.slot = v ∧ ∀ e2 ∈ log, e.state ≤ e2.state) ∧
      v < 2 ^ k ∧ 2 ≤ c1.states v ∧ c1.evict_index < 2 ^ k ∧
      c1.stats.evictions.count = c.stats.evictions.count + 1 := by
  obtain ⟨o, ho, hfv, hspec⟩ := find_victim_run c k hmask hN hst hocc hev
  obtain ⟨newLog, h1, h2, h3, h4, h5, h6, h7, h8, h9, h10, h11, h12, h13, h14, h15⟩ := hspec
  rw [List.nil_append] at h1
  have hvs7 : o.victim_state ≤ 7 := by
    obtain ⟨e, he⟩ := List.exists_mem_of_ne_nil _ (h3 (by omega))
    have h4e := h4 e he
    have h8e := h8 e he
    omega
  refine ⟨o.victim_index, o.log, _, hfv, ?_, ?_, ?_, ?_, ?_, h14, ?_, ?_, rfl⟩
  · rw [h1]; exact h2
  · rw [h1]; exact h4
  · intro s
    rw [h1]
    show o.states s + decayCount s newLog = c.states s
    exact h5 s
  · rw [h1]; exact h7
  · obtain ⟨e, he, hslot, hstate⟩ := h12 (by omega)
    refine ⟨e, by rw [h1]; exact he, hslot, ?_⟩
    intro e2 he2
    rw [h1] at he2
    have := h8 e2 he2
    omega
  · show 2 ≤ o.states o.victim_index
    exact h13 hvs7
  · show o.evict_index < 2 ^ k
    exact h15

/-- C6 witness: the victim-search characterisation at a concrete 64-slot
cache whose only occupied slot is 20 (at age 5). -/
theorem c6_find_victim_characterised_witness :
    ∃ v log c1, find_victim c6W = some (v, log, c1) ∧
      log.length ≤ 16 ∧
      (∀ e ∈ log, 2 ≤ e.state ∧ e.state ≤ 7 ∧ e.slot < 2 ^ 6) ∧
      (∀ s, c1.states s + decayCount s log = c6W.states s) ∧
      (∀ e ∈ log, e.decayed = false →
        e.state = 2 ∧ v = e.slot ∧ log.getLast? = some e) ∧
      (∃ e, e ∈ log ∧ e.slot = v ∧ ∀ e2 ∈ log, e.state ≤ e2.state) ∧
      v < 2 ^ 6 ∧ 2 ≤ c1.states v ∧ c1.evict_index < 2 ^ 6 ∧
      c1.stats.evictions.count = c6W.stats.evictions.count + 1 :=
  c6_find_victim_characterised c6W 6 (by decide) (by decide)
    (fun s => by
      show (if s = 20 then 5 else 0) ≤ 7
      split <;> omega)
    ⟨20, by decide, by decide⟩ (by decide)

/-- C3: a `Fetch` of an absent key on a reachable cache with no producer
registered fails (returns `none` without writing a value), leaves the state
array, the directory entries, the item pool and `item_count` unchanged, and
changes only the lookup and miss statistics. -/
theorem c3_fetch_miss_no_producer (mc ks vs : Nat) (use_crc : Bool) (c : Cache)
    (mem : List Nat)
    (h : Reachable (ihtCacheCreate mc ks vs none use_crc) c)
    (habsent : ∀ s, s < c.cfg.max_entries → 2 ≤ c.states s →
      storedKeyAt c s ≠ mem.take c.cfg.key_size) :
    ∃ n, ihtCacheFetch c mem = some (none, lookup_miss_cache c mem n) ∧
      (lookup_miss_cache c mem n).states = c.states ∧
      (lookup_miss_cache c mem n).entries = c.entries ∧
      (lookup_miss_cache c mem n).items = c.items ∧
      (lookup_miss_cache c mem n).item_count = c.item_count ∧
      (lookup_miss_cache c mem n).stats.lookups = c.stats.lookups + 1 ∧
      (lookup_miss_cache c mem n).stats.misses.count = c.stats.misses.count + 1 ∧
      (lookup_miss_cache c mem n).stats.hits = c.stats.hits ∧
      (lookup_miss_cache c mem n).stats.adds = c.stats.adds ∧
      (lookup_miss_cache c mem n).stats.updates = c.stats.updates ∧
      (lookup_miss_cache c mem n).stats.evictions = c.stats.evictions := by
  obtain ⟨hinv, hcfg⟩ := reachable_inv _ _ h (inv_create mc ks vs none use_crc)
  obtain ⟨k, hpow⟩ := hinv.wf.1
  have hmask : c.cfg.entries_mask = 2 ^ k - 1 := by rw [hinv.wf.2.1, hpow]
  have hfill : c.cfg.filler = none := by rw [hcfg]; rfl
  have hcnt : occCount c.states c.cfg.max_entries < c.cfg.max_entries := by
    have ha := hinv.count_eq
    have hb := hinv.count_le
    have hc := hinv.wf.2.2.2
    omega
  obtain ⟨s0, hs0, hs0e⟩ := exists_empty_slot c.states c.cfg.max_entries hcnt
  rw [hpow] at hs0
  have hidx : (key_hash c.cfg c.work_key mem).2 &&& c.cfg.entries_mask < 2 ^ k :=
    land_mask_lt c.cfg k hmask _
  obtain ⟨d, hd, hdeq⟩ := exists_step_dist k _ s0 hidx hs0
  have hterm := probe_loop_isSome (lookup_c1 c mem)
    (key_match (lookup_c1 c mem) (key_hash c.cfg c.work_key mem).2 mem) k hmask
    c.cfg.max_entries ((key_hash c.cfg c.work_key mem).2 &&& c.cfg.entries_mask) 0 hidx
    ⟨d, by rw [hpow]; exact hd, by rw [hdeq]; exact hs0e⟩
  obtain ⟨res, hres⟩ := Option.isSome_iff_exists.mp hterm
  cases res with
  | hit s n =>
    exfalso
    obtain ⟨d1, hn, hseq, hhit, hsocc, hpath⟩ := probe_loop_hit_spec (lookup_c1 c mem)
      _ k hmask c.cfg.max_entries _ 0 s n hidx hres
    have hslt : s < c.cfg.max_entries := by
      rw [hpow, hseq]
      exact Nat.mod_lt _ (by positivity)
    rw [key_match_iff] at hhit
    have hkey : storedKeyAt c s = mem.take c.cfg.key_size := hhit.2
    exact habsent s hslt hsocc hkey
  | miss s n =>
    have hlk : lookup_entry c mem = some (none, lookup_miss_cache c mem n) := by
      rw [lookup_entry, hres]
    refine ⟨n, ?_, rfl, rfl, rfl, rfl, rfl, rfl, rfl, rfl, rfl, rfl⟩
    have hfill2 : (lookup_miss_cache c mem n).cfg.filler = none := hfill
    simp only [ihtCacheFetch, hlk, calc_new_entry, hfill2]

/-- C3 witness: fetching any key from a freshly created cache with no
producer fails with only the lookup and miss counters changed. -/
theorem c3_fetch_miss_no_producer_witness :
    ∃ n, ihtCacheFetch (ihtCacheCreate 16 16 16 none false) (mk16 1) =
        some (none, lookup_miss_cache (ihtCacheCreate 16 16 16 none false) (mk16 1) n) ∧
      (lookup_miss_cache (ihtCacheCreate 16 16 16 none false) (mk16 1) n).states =
        (ihtCacheCreate 16 16 16 none false).states ∧
      (lookup_miss_cache (ihtCacheCreate 16 16 16 none false) (mk16 1) n).entries =
        (ihtCacheCreate 16 16 16 none false).entries ∧
      (lookup_miss_cache (ihtCacheCreate 16 16 16 none false) (mk16 1) n).items =
        (ihtCacheCreate 16 16 16 none false).items ∧
      (lookup_miss_cache (ihtCacheCreate 16 16 16 none false) (mk16 1) n).item_count =
        (ihtCacheCreate 16 16 16 none false).item_count ∧
      (lookup_miss_cache (ihtCacheCreate 16 16 16 none false) (mk16 1) n).stats.lookups =
        (ihtCacheCreate 16 16 16 none false).stats.lookups + 1 ∧
      (lookup_miss_cache (ihtCacheCreate 16 16 16 none false) (mk16 1) n).stats.misses.count =
        (ihtCacheCreate 16 16 16 none false).stats.misses.count + 1 ∧
      (lookup_miss_cache (ihtCacheCreate 16 16 16 none false) (mk16 1) n).stats.hits =
        (ihtCacheCreate 16 16 16 none false).stats.hits ∧
      (lookup_miss_cache (ihtCacheCreate 16 16 16 none false) (mk16 1) n).stats.adds =
        (ihtCacheCreate 16 16 16 none false).stats.adds ∧
      (lookup_miss_cache (ihtCacheCreate 16 16 16 none false) (mk16 1) n).stats.updates =
        (ihtCacheCreate 16 16 16 none false).stats.updates ∧
      (lookup_miss_cache (ihtCacheCreate 16 16 16 none false) (mk16 1) n).stats.evictions =
        (ihtCacheCreate 16 16 16 none false).stats.evictions :=
  c3_fetch_miss_no_producer 16 16 16 false _ (mk16 1) Relation.ReflTransGen.refl
    (fun s hs h2 => absurd h2 (show ¬(2 ≤ (0 : Nat)) by decide))

theorem readBytes_length (f : Nat → Nat) (off len : Nat) :
    (readBytes f off len).length = len := by
  simp [readBytes]

theorem storedKeyAt_length (c : Cache) (s : Nat) :
    (storedKeyAt c s).length = c.cfg.key_size := by
  simp [storedKeyAt, readBytes]

/-- Reading back exactly the bytes just written. -/
theorem readBytes_writeBytes_eq (f : Nat → Nat) (off : Nat) (src : List Nat) :
    readBytes (writeBytes f off src) off src.length = src := by
  apply List.ext_getElem
  · simp [readBytes]
  · intro i h1 h2
    have hi : i < src.length := by simpa [readBytes] using h1
    simp only [readBytes, List.getElem_map, List.getElem_range, writeBytes]
    rw [if_pos ⟨Nat.le_add_right _ _, by omega⟩]
    have hsub : off + i - off = i := by omega
    rw [hsub, List.getD_eq_getElem src 0 hi]

/-- A write above the read window does not change it. -/
theorem readBytes_writeBytes_lo (f : Nat → Nat) (off : Nat) (src : List Nat)
    (off2 len : Nat) (h : off2 + len ≤ off) :
    readBytes (writeBytes f off src) off2 len = readBytes f off2 len := by
  apply List.ext_getElem
  · simp [readBytes]
  · intro i h1 h2
    have hi : i < len := by simpa [readBytes] using h1
    simp only [readBytes, List.getElem_map, List.getElem_range, writeBytes]
    rw [if_neg]
    intro hc
    have := hc.1
    omega

theorem store_item_cfg (c : Cache) (i : Nat) (mem v : List Nat) :
    (store_item c i mem v).cfg = c.cfg := rfl

theorem store_item_states (c : Cache) (i : Nat) (mem v : List Nat) :
    (store_item c i mem v).states = c.states := rfl

theorem store_item_entries (c : Cache) (i : Nat) (mem v : List Nat) :
    (store_item c i mem v).entries = c.entries := rfl

theorem store_item_item_count (c : Cache) (i : Nat) (mem v : List Nat) :
    (store_item c i mem v).item_count = c.item_count := rfl

theorem store_item_stats (c : Cache) (i : Nat) (mem v : List Nat) :
    (store_item c i mem v).stats = c.stats := rfl

theorem store_item_items (c : Cache) (i : Nat) (mem v : List Nat) :
    (store_item c i mem v).items =
      upd c.items i (writeBytes (writeBytes (c.items i) c.cfg.key_offset
        (mem.take c.cfg.key_size)) c.cfg.value_offset (v.take c.cfg.value_size)) := rfl

/-- After `store_item`, a slot whose item was not written keeps its key. -/
theorem storedKeyAt_store_other (c : Cache) (i : Nat) (mem v : List Nat) (s : Nat)
    (h : (c.entries s).item_index ≠ i) :
    storedKeyAt (store_item c i mem v) s = storedKeyAt c s := by
  simp only [storedKeyAt, store_item_items, store_item_entries, store_item_cfg]
  rw [upd_ne _ _ _ h]

/-- After `store_item`, the written item's slot holds the caller's key bytes
(for layouts where the key is at offset 0 and the value region lies past the
key region). -/
theorem storedKeyAt_store_self (c : Cache) (i : Nat) (mem v : List Nat) (s : Nat)
    (hidx : (c.entries s).item_index = i)
    (hko : c.cfg.key_offset = 0) (hkv : c.cfg.key_size ≤ c.cfg.value_offset)
    (hlen : c.cfg.key_size ≤ mem.length) :
    storedKeyAt (store_item c i mem v) s = mem.take c.cfg.key_size := by
  simp only [storedKeyAt, store_item_items, store_item_entries, store_item_cfg]
  rw [hidx, upd_self, hko]
  rw [readBytes_writeBytes_lo _ _ _ 0 c.cfg.key_size (by omega)]
  have hl : (mem.take c.cfg.key_size).length = c.cfg.key_size := by
    rw [List.length_take]
    omega
  calc readBytes (writeBytes (c.items i) 0 (mem.take c.cfg.key_size)) 0 c.cfg.key_size
      = readBytes (writeBytes (c.items i) 0 (mem.take c.cfg.key_size)) 0
          (mem.take c.cfg.key_size).length := by rw [hl]
    _ = mem.take c.cfg.key_size := readBytes_writeBytes_eq _ _ _

/-- On a 16-byte-key configuration the lookup-path hash is the fast hash of
the key bytes and the scratch key is untouched. -/
theorem key_hash_fast (cfg : Config) (wk mem : List Nat)
    (hsk : cfg.short_key = false) (hfk : cfg.fast_key = true) :
    key_hash cfg wk mem = (wk, fast_key_hash cfg.use_crc (mem.take 16)) := by
  simp [key_hash, hsk, hfk]

/-- The layout `setup` derives for a 16-byte key. -/
theorem setup_ks16 (mc vs : Nat) (f : Option (List Nat → Option (List Nat))) (u : Bool) :
    (setup mc 16 vs 2 5 f u).key_size = 16 ∧
    (setup mc 16 vs 2 5 f u).key_offset = 0 ∧
    (setup mc 16 vs 2 5 f u).value_offset = 16 ∧
    (setup mc 16 vs 2 5 f u).short_key = false ∧
    (setup mc 16 vs 2 5 f u).fast_key = true := by
  refine ⟨rfl, ?_, ?_, rfl, rfl⟩ <;>
  · simp only [setup]
    by_cases hv : vs ≤ 16 <;> simp [hv]

theorem alloc_update_evictions (c : Cache) (mem : List Nat) (victim : Option (Nat × Nat))
    (n : Nat) : (alloc_update_cache c mem victim n).stats.evictions = c.stats.evictions := by
  rcases victim with _ | ⟨vidx, vstate⟩ <;> rfl

theorem alloc_insert_evictions (c : Cache) (mem : List Nat) (newIdx s n : Nat) :
    (alloc_insert_cache c mem newIdx s n).stats.evictions = c.stats.evictions := rfl

/-- The insertion probe never touches the evictions counter. -/
theorem alloc_finish_evictions (c : Cache) (mem : List Nat) (victim : Option (Nat × Nat))
    (newIdx s : Nat) (c1 : Cache) (h : alloc_finish c mem victim newIdx = some (s, c1)) :
    c1.stats.evictions = c.stats.evictions := by
  rw [alloc_finish] at h
  rcases hres : probe_loop (alloc_c1 c mem)
      (key_match (alloc_c1 c mem) (key_hash c.cfg c.work_key mem).2 mem)
      ((key_hash c.cfg c.work_key mem).2 &&& c.cfg.entries_mask) 0 c.cfg.max_entries
    with _ | res
  · rw [hres] at h
    exact absurd h (by simp)
  · rw [hres] at h
    cases res with
    | hit s2 n =>
      injection h with h1
      injection h1 with hs hc
      subst hc
      exact alloc_update_evictions c mem victim n
    | miss s2 n =>
      injection h with h1
      injection h1 with hs hc
      subst hc
      exact alloc_insert_evictions c mem newIdx s2 n

/-- `alloc_new_entry` leaves the evictions counter unchanged when the pool
has room, and bumps it by exactly one when it evicts. -/
theorem alloc_evictions (c : Cache) (mem : List Nat) (hinv : Inv c) (s : Nat) (c1 : Cache)
    (h : alloc_new_entry c mem = some (s, c1)) :
    (c.item_count < c.cfg.max_items ∧ c1.stats.evictions = c.stats.evictions) ∨
    (c.cfg.max_items ≤ c.item_count ∧
      c1.stats.evictions.count = c.stats.evictions.count + 1) := by
  obtain ⟨k, hpow⟩ := hinv.wf.1
  have hmask : c.cfg.entries_mask = 2 ^ k - 1 := by rw [hinv.wf.2.1, hpow]
  by_cases hge : c.item_count ≥ c.cfg.max_items
  · right
    refine ⟨hge, ?_⟩
    rw [alloc_new_entry, if_pos hge] at h
    have hocc : ∃ t, t < 2 ^ k ∧ 2 ≤ c.states t := by
      have h1 := hinv.count_eq
      have h2 := hinv.wf.2.2.1
      obtain ⟨t, ht, hto⟩ := exists_occ_slot c.states c.cfg.max_entries (by omega)
      exact ⟨t, by omega, hto⟩
    obtain ⟨v, log, cv, hfv, hcfgv, hent, hit, hic, hwk, hdes, hvd, hevc, hl, hh, hm,
      ha, hu, hvlt, hvocc, hdec, hiff, hne1p, hevlt⟩ :=
      find_victim_facts c k hmask hpow hinv.state_le hocc
        (by rw [← hpow]; exact hinv.evict_lt)
    simp only [hfv] at h
    have h2 := alloc_finish_evictions _ mem _ _ s c1 h
    rw [h2]
    exact hevc
  · left
    refine ⟨by omega, ?_⟩
    rw [alloc_new_entry, if_neg hge] at h
    exact alloc_finish_evictions c mem none c.item_count s c1 h

/-- `calc_new_entry` leaves the evictions counter unchanged or bumps it by
exactly one. -/
theorem calc_evictions (c : Cache) (mem : List Nat) (hinv : Inv c) (r : Option Nat)
    (c1 : Cache) (h : calc_new_entry c mem = some (r, c1)) :
    c1.stats.evictions = c.stats.evictions ∨
    c1.stats.evictions.count = c.stats.evictions.count + 1 := by
  rcases hf : c.cfg.filler with _ | f
  · simp only [calc_new_entry, hf] at h
    injection h with h1
    injection h1 with hr hc
    subst hc
    exact Or.inl rfl
  · rcases hv : f (mem.take c.cfg.key_size) with _ | v
    · simp only [calc_new_entry, hf, hv] at h
      injection h with h1
      injection h1 with hr hc
      subst hc
      exact Or.inl rfl
    · rcases halloc : alloc_new_entry c mem with _ | sc
      · simp only [calc_new_entry, hf, hv, halloc] at h
        exact absurd h (by simp)
      · obtain ⟨s, c2⟩ := sc
        simp only [calc_new_entry, hf, hv, halloc] at h
        injection h with h1
        injection h1 with hr hc
        subst hc
        rcases alloc_evictions c mem hinv s c2 halloc with ⟨_, he⟩ | ⟨_, he⟩
        · exact Or.inl he
        · exact Or.inr he

/-- One public step leaves the evictions counter unchanged or bumps it by
exactly one. -/
theorem step_evictions (c c1 : Cache) (hs : Step c c1) (hinv : Inv c) :
    c1.stats.evictions = c.stats.evictions ∨
    c1.stats.evictions.count = c.stats.evictions.count + 1 := by
  cases hs with
  | put key v hk hv b h =>
    rcases halloc : alloc_new_entry c key with _ | sc
    · simp only [ihtCachePut, halloc] at h
      exact absurd h (by simp)
    · obtain ⟨s, c2⟩ := sc
      simp only [ihtCachePut, halloc] at h
      injection h with h1
      injection h1 with hb hc1
      subst hc1
      rcases alloc_evictions c key hinv s c2 halloc with ⟨_, he⟩ | ⟨_, he⟩
      · exact Or.inl he
      · exact Or.inr he
  | fetch key hk r h =>
    obtain ⟨r1, cl, hlk, hinvl, hcfgl, hentl, hitemsl, hicl, hevl, hdesl, hvdl, hiffl,
      hevcl⟩ := lookup_entry_total c key hinv
    cases r1 with
    | some s =>
      simp only [ihtCacheFetch, hlk] at h
      injection h with h1
      injection h1 with hr hc1
      subst hc1
      exact Or.inl hevcl
    | none =>
      rcases hcl : calc_new_entry cl key with _ | rc
      · simp only [ihtCacheFetch, hlk, hcl] at h
        exact absurd h (by simp)
      · obtain ⟨r2, c2⟩ := rc
        cases r2 with
        | none =>
          simp only [ihtCacheFetch, hlk, hcl] at h
          injection h with h1
          injection h1 with hr hc1
          subst hc1
          rcases calc_evictions cl key hinvl none c2 hcl with he | he
          · exact Or.inl (by rw [he, hevcl])
          · refine Or.inr ?_
            rw [he, hevcl]
        | some s2 =>
          simp only [ihtCacheFetch, hlk, hcl] at h
          injection h with h1
          injection h1 with hr hc1
          subst hc1
          rcases calc_evictions cl key hinvl (some s2) c2 hcl with he | he
          · exact Or.inl (by rw [he, hevcl])
          · refine Or.inr ?_
            rw [he, hevcl]
  | lookup key hk r h =>
    obtain ⟨r1, cl, hlk, hinvl, hcfgl, hentl, hitemsl, hicl, hevl, hdesl, hvdl, hiffl,
      hevcl⟩ := lookup_entry_total c key hinv
    cases r1 with
    | none =>
      simp only [ihtCacheLookup, hlk] at h
      injection h with h1
      injection h1 with hr hc1
      subst hc1
      exact Or.inl hevcl
    | some s =>
      simp only [ihtCacheLookup, hlk] at h
      injection h with h1
      injection h1 with hr hc1
      subst hc1
      exact Or.inl hevcl

/-- The evictions counter never decreases along a reachable run. -/
theorem reachable_evictions_mono (c0 c : Cache) (h : Reachable c0 c) (h0 : Inv c0) :
    c0.stats.evictions.count ≤ c.stats.evictions.count := by
  induction h with
  | refl => exact le_refl _
  | tail hsteps hstep ih =>
    have hinv1 := (reachable_inv _ _ hsteps h0).1
    rcases step_evictions _ _ hstep hinv1 with he | he
    · rw [he]
      exact ih
    · omega

/-- The key-uniqueness invariant transfers to any cache with the same
geometry, directory entries and item count, equivalent occupancy and
unchanged keys of occupied slots. -/
theorem keyinv_transfer (c c1 : Cache) (hki : KeyInv c) (hinv1 : Inv c1)
    (hcfg : c1.cfg = c.cfg) (hent : c1.entries = c.entries)
    (hic : c1.item_count = c.item_count)
    (hiff : ∀ s, 2 ≤ c1.states s ↔ 2 ≤ c.states s)
    (hkeys : ∀ t, t < c.cfg.max_entries → 2 ≤ c.states t →
      storedKeyAt c1 t = storedKeyAt c t) : KeyInv c1 := by
  have hhome : ∀ s, homeOf c1 s = homeOf c s := by
    intro s
    rw [homeOf, homeOf, hent, hcfg]
  refine ⟨hinv1, by rw [hcfg]; exact hki.ks16, by rw [hcfg]; exact hki.ko0,
    by rw [hcfg]; exact hki.vo16, by rw [hcfg]; exact hki.sk, by rw [hcfg]; exact hki.fk,
    ?_, ?_, ?_, ?_, ?_⟩
  · intro s hslt hocc
    rw [hcfg] at hslt
    have hocc2 := (hiff s).mp hocc
    rw [hent, hcfg, hkeys s hslt hocc2]
    exact hki.hash_eq s hslt hocc2
  · intro s hslt hocc
    rw [hcfg] at hslt
    rw [hhome, hcfg]
    obtain ⟨d, hd, hpath⟩ := hki.chain s hslt ((hiff s).mp hocc)
    exact ⟨d, hd, fun t ht => (hiff _).mpr (hpath t ht)⟩
  · intro s hslt hocc
    rw [hcfg] at hslt
    rw [hent, hic]
    exact hki.idx_lt s hslt ((hiff s).mp hocc)
  · intro s t hs ht hos hot heq
    rw [hcfg] at hs ht
    rw [hent] at heq
    exact hki.idx_inj s t hs ht ((hiff s).mp hos) ((hiff t).mp hot) heq
  · intro s t hs ht hos hot heq
    rw [hcfg] at hs ht
    have hos2 := (hiff s).mp hos
    have hot2 := (hiff t).mp hot
    rw [hkeys s hs hos2, hkeys t ht hot2] at heq
    exact hki.uniq s t hs ht hos2 hot2 heq

/-- A freshly created cache with 16-byte keys satisfies the key-uniqueness
invariant. -/
theorem keyinv_create (mc vs : Nat) (filler : Option (List Nat → Option (List Nat)))
    (u : Bool) : KeyInv (ihtCacheCreate mc 16 vs filler u) := by
  obtain ⟨hks, hko, hvo, hsk, hfk⟩ := setup_ks16 mc vs filler u
  exact ⟨inv_create mc 16 vs filler u, hks, hko, hvo.ge, hsk, hfk,
    fun s hs h2 => absurd h2 (show ¬(2 ≤ (0 : Nat)) by decide),
    fun s hs h2 => absurd h2 (show ¬(2 ≤ (0 : Nat)) by decide),
    fun s hs h2 => absurd h2 (show ¬(2 ≤ (0 : Nat)) by decide),
    fun s t hs ht h2 _ _ => absurd h2 (show ¬(2 ≤ (0 : Nat)) by decide),
    fun s t hs ht h2 _ _ => absurd h2 (show ¬(2 ≤ (0 : Nat)) by decide)⟩

theorem insert_store_cfg (c : Cache) (mem v : List Nat) (s n : Nat) :
    (insert_store_cache c mem v s n).cfg = c.cfg := rfl

theorem insert_store_states (c : Cache) (mem v : List Nat) (s n : Nat) :
    (insert_store_cache c mem v s n).states = upd c.states s 2 := rfl

theorem insert_store_entries (c : Cache) (mem v : List Nat) (s n : Nat) :
    (insert_store_cache c mem v s n).entries =
      upd c.entries s ⟨(key_hash c.cfg c.work_key mem).2, c.item_count⟩ := rfl

theorem insert_store_item_count (c : Cache) (mem v : List Nat) (s n : Nat) :
    (insert_store_cache c mem v s n).item_count = c.item_count + 1 := rfl

/-- The freshly inserted slot holds the caller's key bytes. -/
theorem insert_store_key_self (c : Cache) (mem v : List Nat) (s n : Nat)
    (hko : c.cfg.key_offset = 0) (hkv : c.cfg.key_size ≤ c.cfg.value_offset)
    (hlen : c.cfg.key_size ≤ mem.length) :
    storedKeyAt (insert_store_cache c mem v s n) s = mem.take c.cfg.key_size := by
  rw [insert_store_cache]
  exact storedKeyAt_store_self _ _ mem v s rfl hko hkv hlen

/-- Any other occupied slot keeps its key across the insert-and-store. -/
theorem insert_store_key_other (c : Cache) (mem v : List Nat) (s n : Nat) (t : Nat)
    (htne : t ≠ s) (hidxne : (c.entries t).item_index ≠ c.item_count) :
    storedKeyAt (insert_store_cache c mem v s n) t = storedKeyAt c t := by
  rw [insert_store_cache]
  have h3 : (alloc_insert_cache c mem c.item_count s n).entries t = c.entries t :=
    upd_ne c.entries s _ htne
  have h4 : ((alloc_insert_cache c mem c.item_count s n).entries s).item_index =
      c.item_count := by
    show (upd c.entries s ⟨(key_hash c.cfg c.work_key mem).2, c.item_count⟩ s).item_index =
      c.item_count
    rw [upd_self]
  have h5 : ((alloc_insert_cache c mem c.item_count s n).entries t).item_index ≠
      ((alloc_insert_cache c mem c.item_count s n).entries s).item_index := by
    rw [h3, h4]
    exact hidxne
  rw [storedKeyAt_store_other _ _ mem v t h5]
  simp only [storedKeyAt]
  rw [h3]
  rfl

/-- A non-evicting `alloc_new_entry` followed by `store_item` of the probed
key preserves the key-uniqueness invariant: an update rewrites the hit
slot's item with the same key, and an insert installs the key at the first
empty slot of its probe chain, where no occupied slot can already hold it. -/
theorem keyinv_alloc_store (c : Cache) (mem v : List Nat) (hki : KeyInv c)
    (hlen : mem.length = c.cfg.key_size)
    (hroom : c.item_count < c.cfg.max_items)
    (s : Nat) (c1 : Cache)
    (halloc : alloc_new_entry c mem = some (s, c1)) :
    KeyInv (store_item c1 ((c1.entries s).item_index) mem v) := by
  have hinv := hki.inv
  obtain ⟨k, hpow⟩ := hinv.wf.1
  have hmask : c.cfg.entries_mask = 2 ^ k - 1 := by rw [hinv.wf.2.1, hpow]
  obtain ⟨s2, c2t, halloc2, hinv1, hcfg1, hslt1, hsocc1, hdes1, hvd1⟩ := alloc_total c mem hinv
  rw [halloc] at halloc2
  injection halloc2 with h1
  injection h1 with hs2 hc2
  subst hs2
  subst hc2
  rw [alloc_new_entry, if_neg (by omega)] at halloc
  rw [alloc_finish] at halloc
  rcases hres : probe_loop (alloc_c1 c mem)
      (key_match (alloc_c1 c mem) (key_hash c.cfg c.work_key mem).2 mem)
      ((key_hash c.cfg c.work_key mem).2 &&& c.cfg.entries_mask) 0 c.cfg.max_entries
    with _ | res
  · rw [hres] at halloc
    exact absurd halloc (by simp)
  rw [hres] at halloc
  have hidx0 : (key_hash c.cfg c.work_key mem).2 &&& c.cfg.entries_mask < 2 ^ k :=
    land_mask_lt c.cfg k hmask _
  have hH : (key_hash c.cfg c.work_key mem).2 =
      fast_key_hash c.cfg.use_crc (mem.take 16) := by
    rw [key_hash_fast c.cfg c.work_key mem hki.sk hki.fk]
  have hkv : c.cfg.key_size ≤ c.cfg.value_offset := by
    rw [hki.ks16]
    exact hki.vo16
  have hlenge : c.cfg.key_size ≤ mem.length := hlen.ge
  cases res with
  | hit sh nh =>
    injection halloc with h2
    injection h2 with hsh hc1
    have hsh2 := hsh.symm
    subst hsh2
    subst hc1
    obtain ⟨d, hn, hseq, hhit, hsocc, hpath⟩ := probe_loop_hit_spec (alloc_c1 c mem)
      _ k hmask c.cfg.max_entries _ 0 s nh hidx0 hres
    rw [key_match_iff] at hhit
    have hkeyeq : storedKeyAt c s = mem.take c.cfg.key_size := hhit.2
    have hsocc2 : 2 ≤ c.states s := hsocc
    refine keyinv_transfer c _ hki (inv_store_item _ _ _ _ hinv1) rfl rfl rfl
      (fun t => Iff.rfl) ?_
    intro t ht hot
    by_cases hid : (c.entries t).item_index = (c.entries s).item_index
    · have hts : t = s := hki.idx_inj t s ht hslt1 hot hsocc2 hid
      subst hts
      have hself := storedKeyAt_store_self (alloc_update_cache c mem none nh)
        (((alloc_update_cache c mem none nh).entries t).item_index) mem v t rfl
        hki.ko0 hkv hlenge
      exact hself.trans hkeyeq.symm
    · exact storedKeyAt_store_other (alloc_update_cache c mem none nh) _ mem v t hid
  | miss sm nm =>
    injection halloc with h2
    injection h2 with hsm hc1
    have hsm2 := hsm.symm
    subst hsm2
    subst hc1
    obtain ⟨d, hn, hseq, hsempty, hpath⟩ := probe_loop_miss_spec (alloc_c1 c mem)
      _ k hmask c.cfg.max_entries _ 0 s nm hidx0 hres
    have hsempty2 : c.states s ≤ 1 := hsempty
    show KeyInv (insert_store_cache c mem v s nm)
    have hkey_self := insert_store_key_self c mem v s nm hki.ko0 hkv hlenge
    have hocc_mono : ∀ x, 2 ≤ c.states x → 2 ≤ upd c.states s 2 x := by
      intro x hx
      by_cases hxs : x = s
      · subst hxs
        rw [upd_self]
      · rw [upd_ne _ _ _ hxs]
        exact hx
    have key_absent : ∀ u, u < c.cfg.max_entries → u ≠ s → 2 ≤ c.states u →
        storedKeyAt c u ≠ mem.take c.cfg.key_size := by
      intro u hu hus hou hkeyu
      have hhu : (c.entries u).hash_value = (key_hash c.cfg c.work_key mem).2 := by
        rw [hki.hash_eq u hu hou, hkeyu, hki.ks16, hH]
      obtain ⟨du, hdu, hpathu⟩ := hki.chain u hu hou
      have hhome : homeOf c u =
          (key_hash c.cfg c.work_key mem).2 &&& c.cfg.entries_mask := by
        rw [homeOf, hhu]
      rw [hhome, hpow] at hdu hpathu
      have hdu2lt : du % 2 ^ k < 2 ^ k := Nat.mod_lt _ (by positivity)
      have hdu2le : du % 2 ^ k ≤ du := Nat.mod_le _ _
      have hueq : u = (((key_hash c.cfg c.work_key mem).2 &&& c.cfg.entries_mask) +
          du % 2 ^ k) % 2 ^ k := by
        rw [hdu, Nat.add_mod_mod]
      rcases Nat.lt_trichotomy (du % 2 ^ k) d with hlt | heqd | hgt
      · have hkm := (hpath (du % 2 ^ k) hlt).2
        rw [← hueq] at hkm
        have htrue : key_match (alloc_c1 c mem) (key_hash c.cfg c.work_key mem).2 mem u
            = true := by
          rw [key_match_iff]
          exact ⟨hhu, hkeyu⟩
        rw [htrue] at hkm
        exact Bool.noConfusion hkm
      · rw [heqd] at hueq
        rw [← hseq] at hueq
        exact hus hueq
      · have hocc2 := hpathu d (by omega)
        rw [← hseq] at hocc2
        omega
    refine ⟨inv_store_item _ _ _ _ hinv1, hki.ks16, hki.ko0, hki.vo16, hki.sk, hki.fk,
      ?_, ?_, ?_, ?_, ?_⟩
    · intro t ht hot
      rw [insert_store_cfg] at ht
      rw [insert_store_states] at hot
      rw [insert_store_entries, insert_store_cfg]
      by_cases hts : t = s
      · rw [hts, upd_self, hkey_self, hki.ks16]
        exact hH
      · rw [upd_ne _ _ _ hts]
        have hotc : 2 ≤ c.states t := by
          rw [upd_ne _ _ _ hts] at hot
          exact hot
        rw [insert_store_key_other c mem v s nm t hts
          (Nat.ne_of_lt (hki.idx_lt t ht hotc))]
        exact hki.hash_eq t ht hotc
    · intro t ht hot
      rw [insert_store_cfg] at ht
      rw [insert_store_states] at hot
      simp only [homeOf, insert_store_entries, insert_store_cfg, insert_store_states]
      by_cases hts : t = s
      · rw [hts, upd_self]
        refine ⟨d, ?_, ?_⟩
        · rw [hpow]
          exact hseq
        · intro j hj
          rw [hpow]
          exact hocc_mono _ ((hpath j hj).1)
      · rw [upd_ne _ _ _ hts]
        have hotc : 2 ≤ c.states t := by
          rw [upd_ne _ _ _ hts] at hot
          exact hot
        obtain ⟨d2, hd2, hpath2⟩ := hki.chain t ht hotc
        simp only [homeOf] at hd2 hpath2
        exact ⟨d2, hd2, fun j hj => hocc_mono _ (hpath2 j hj)⟩
    · intro t ht hot
      rw [insert_store_cfg] at ht
      rw [insert_store_states] at hot
      rw [insert_store_entries, insert_store_item_count]
      by_cases hts : t = s
      · rw [hts, upd_self]
        show c.item_count < c.item_count + 1
        omega
      · rw [upd_ne _ _ _ hts]
        have hotc : 2 ≤ c.states t := by
          rw [upd_ne _ _ _ hts] at hot
          exact hot
        have := hki.idx_lt t ht hotc
        omega
    · intro t u ht hu hot hou heq
      rw [insert_store_cfg] at ht hu
      rw [insert_store_states] at hot hou
      rw [insert_store_entries] at heq
      by_cases hts : t = s <;> by_cases hus : u = s
      · rw [hts, hus]
      · rw [hts, upd_self] at heq
        rw [upd_ne _ _ _ hus] at heq
        have houc : 2 ≤ c.states u := by
          rw [upd_ne _ _ _ hus] at hou
          exact hou
        have hlt2 := hki.idx_lt u hu houc
        exfalso
        have heq2 : c.item_count = (c.entries u).item_index := heq
        omega
      · rw [hus, upd_self] at heq
        rw [upd_ne _ _ _ hts] at heq
        have hotc : 2 ≤ c.states t := by
          rw [upd_ne _ _ _ hts] at hot
          exact hot
        have hlt2 := hki.idx_lt t ht hotc
        exfalso
        have heq2 : (c.entries t).item_index = c.item_count := heq
        omega
      · rw [upd_ne _ _ _ hts, upd_ne _ _ _ hus] at heq
        have hotc : 2 ≤ c.states t := by
          rw [upd_ne _ _ _ hts] at hot
          exact hot
        have houc : 2 ≤ c.states u := by
          rw [upd_ne _ _ _ hus] at hou
          exact hou
        exact hki.idx_inj t u ht hu hotc houc heq
    · intro t u ht hu hot hou heq
      rw [insert_store_cfg] at ht hu
      rw [insert_store_states] at hot hou
      by_cases hts : t = s <;> by_cases hus : u = s
      · rw [hts, hus]
      · have houc : 2 ≤ c.states u := by
          rw [upd_ne _ _ _ hus] at hou
          exact hou
        rw [hts, hkey_self] at heq
        rw [insert_store_key_other c mem v s nm u hus
          (Nat.ne_of_lt (hki.idx_lt u hu houc))] at heq
        exact absurd heq.symm (key_absent u hu hus houc)
      · have hotc : 2 ≤ c.states t := by
          rw [upd_ne _ _ _ hts] at hot
          exact hot
        rw [hus, hkey_self] at heq
        rw [insert_store_key_other c mem v s nm t hts
          (Nat.ne_of_lt (hki.idx_lt t ht hotc))] at heq
        exact absurd heq (key_absent t ht hts hotc)
      · have hotc : 2 ≤ c.states t := by
          rw [upd_ne _ _ _ hts] at hot
          exact hot
        have houc : 2 ≤ c.states u := by
          rw [upd_ne _ _ _ hus] at hou
          exact hou
        rw [insert_store_key_other c mem v s nm t hts
            (Nat.ne_of_lt (hki.idx_lt t ht hotc)),
          insert_store_key_other c mem v s nm u hus
            (Nat.ne_of_lt (hki.idx_lt u hu houc))] at heq
        exact hki.uniq t u ht hu hotc houc heq

/-- A public step that does not bump the evictions counter preserves the
key-uniqueness invariant. -/
theorem keyinv_step (c c1 : Cache) (hs : Step c c1) (hki : KeyInv c)
    (hev : c1.stats.evictions.count = c.stats.evictions.count) : KeyInv c1 := by
  cases hs with
  | put key v hk hv b h =>
    rcases halloc : alloc_new_entry c key with _ | sc
    · simp only [ihtCachePut, halloc] at h
      exact absurd h (by simp)
    · obtain ⟨s, c2⟩ := sc
      simp only [ihtCachePut, halloc] at h
      injection h with h1
      injection h1 with hb hc1
      subst hc1
      by_cases hroom : c.item_count < c.cfg.max_items
      · exact keyinv_alloc_store c key v hki hk hroom s c2 halloc
      · exfalso
        rcases alloc_evictions c key hki.inv s c2 halloc with ⟨hlt, _⟩ | ⟨_, hcnt⟩
        · omega
        · have hsc : (store_item c2 ((c2.entries s).item_index) key v).stats.evictions.count
              = c2.stats.evictions.count := rfl
          omega
  | fetch key hk r h =>
    obtain ⟨r1, cl, hlk, hinvl, hcfgl, hentl, hitemsl, hicl, hevl, hdesl, hvdl, hiffl,
      hevcl⟩ := lookup_entry_total c key hki.inv
    have hkil : KeyInv cl := keyinv_transfer c cl hki hinvl hcfgl hentl hicl hiffl
      (fun t _ _ => by simp only [storedKeyAt]; rw [hentl, hitemsl, hcfgl])
    cases r1 with
    | some s =>
      simp only [ihtCacheFetch, hlk] at h
      injection h with h1
      injection h1 with hr hc1
      subst hc1
      exact hkil
    | none =>
      rcases hcl : calc_new_entry cl key with _ | rc
      · simp only [ihtCacheFetch, hlk, hcl] at h
        exact absurd h (by simp)
      · obtain ⟨r2, c2⟩ := rc
        cases r2 with
        | none =>
          simp only [ihtCacheFetch, hlk, hcl] at h
          injection h with h1
          injection h1 with hr hc1
          subst hc1
          rcases hf : cl.cfg.filler with _ | f
          · simp only [calc_new_entry, hf] at hcl
            injection hcl with h2
            injection h2 with hr2 hc2
            subst hc2
            exact hkil
          · rcases hv2 : f (key.take cl.cfg.key_size) with _ | vv
            · simp only [calc_new_entry, hf, hv2] at hcl
              injection hcl with h2
              injection h2 with hr2 hc2
              subst hc2
              exact hkil
            · rcases halloc : alloc_new_entry cl key with _ | sc2
              · simp only [calc_new_entry, hf, hv2, halloc] at hcl
                exact absurd hcl (by simp)
              · obtain ⟨s2, c3⟩ := sc2
                simp only [calc_new_entry, hf, hv2, halloc] at hcl
                injection hcl with h2
                injection h2 with hr2 hc2
                exact absurd hr2 (by simp)
        | some s2out =>
          simp only [ihtCacheFetch, hlk, hcl] at h
          injection h with h1
          injection h1 with hr hc1
          subst hc1
          rcases hf : cl.cfg.filler with _ | f
          · simp only [calc_new_entry, hf] at hcl
            injection hcl with h2
            injection h2 with hr2 hc2
            exact absurd hr2 (by simp)
          · rcases hv2 : f (key.take cl.cfg.key_size) with _ | vv
            · simp only [calc_new_entry, hf, hv2] at hcl
              injection hcl with h2
              injection h2 with hr2 hc2
              exact absurd hr2 (by simp)
            · rcases halloc : alloc_new_entry cl key with _ | sc2
              · simp only [calc_new_entry, hf, hv2, halloc] at hcl
                exact absurd hcl (by simp)
              · obtain ⟨s2, c3⟩ := sc2
                simp only [calc_new_entry, hf, hv2, halloc] at hcl
                injection hcl with h2
                injection h2 with hr2 hc2
                subst hc2
                by_cases hroom : cl.item_count < cl.cfg.max_items
                · exact keyinv_alloc_store cl key vv hkil (by rw [hcfgl]; exact hk)
                    hroom s2 c3 halloc
                · exfalso
                  rcases alloc_evictions cl key hinvl s2 c3 halloc with ⟨hlt, _⟩ | ⟨_, hcnt⟩
                  · omega
                  · have hsc : (store_item c3 ((c3.entries s2).item_index) key
                        vv).stats.evictions.count = c3.stats.evictions.count := rfl
                    have h5 : cl.stats.evictions.count = c.stats.evictions.count := by
                      rw [hevcl]
                    omega
  | lookup key hk r h =>
    obtain ⟨r1, cl, hlk, hinvl, hcfgl, hentl, hitemsl, hicl, hevl, hdesl, hvdl, hiffl,
      hevcl⟩ := lookup_entry_total c key hki.inv
    have hkil : KeyInv cl := keyinv_transfer c cl hki hinvl hcfgl hentl hicl hiffl
      (fun t _ _ => by simp only [storedKeyAt]; rw [hentl, hitemsl, hcfgl])
    cases r1 with
    | none =>
      simp only [ihtCacheLookup, hlk] at h
      injection h with h1
      injection h1 with hr hc1
      subst hc1
      exact hkil
    | some s =>
      simp only [ihtCacheLookup, hlk] at h
      injection h with h1
      injection h1 with hr hc1
      subst hc1
      exact hkil

/-- Along a reachable run whose final evictions count equals the initial
one, the key-uniqueness invariant is preserved. -/
theorem reachable_keyinv (c0 c : Cache) (h : Reachable c0 c) (hki : KeyInv c0)
    (hnoev : c.stats.evictions.count = c0.stats.evictions.count) : KeyInv c := by
  induction h with
  | refl => exact hki
  | tail hsteps hstep ih =>
    rename_i c1 c2
    have hinv1 := (reachable_inv _ _ hsteps hki.inv).1
    have hmono := reachable_evictions_mono _ _ hsteps hki.inv
    rcases step_evictions _ _ hstep hinv1 with he | he
    · have he2 : c2.stats.evictions.count = c1.stats.evictions.count := by rw [he]
      have h1 : c1.stats.evictions.count = c0.stats.evictions.count := by omega
      exact keyinv_step _ _ hstep (ih h1) he2
    · exfalso
      omega

/-- C10 (amended): for a cache created with 16-byte keys, in any state
reachable by public operations in which no eviction has yet occurred, no two
occupied directory slots store bytewise-equal keys.  (The unamended claim is
false: an eviction can break a probe chain, after which re-putting a key
whose lookup now misses installs a second copy; see the counterexample.) -/
theorem c10_no_eviction_key_uniqueness (mc vs : Nat)
    (filler : Option (List Nat → Option (List Nat))) (use_crc : Bool) (c : Cache)
    (h : Reachable (ihtCacheCreate mc 16 vs filler use_crc) c)
    (hnoev : c.stats.evictions.count = 0) :
    KeysUnique c :=
  (reachable_keyinv _ c h (keyinv_create mc vs filler use_crc) hnoev).uniq

/-- C10 amended witness: key uniqueness at a freshly created cache. -/
theorem c10_no_eviction_key_uniqueness_witness :
    KeysUnique (ihtCacheCreate 16 16 16 none false) :=
  c10_no_eviction_key_uniqueness 16 16 none false _ Relation.ReflTransGen.refl rfl

end Iht
